import Mathlib

/-!
# Position-Distributor: reconciliation engine, transport framing, event dispatch

A shallow embedding of `src/server/Engine.h`, `src/server/peer.h`,
`src/server/EventDispatcher.h` and `src/server/utils.cpp`.

Modelling conventions
* `double` values are rationals and their arithmetic is exact.
* `int64_t` timestamps are integers; the code never does arithmetic on them.
* `std::unordered_map` is an association list with unique keys; `operator[]`
  inserts a value-initialised entry when the key is absent.  The iteration
  order of the container is the order of the list.
* The protobuf codec (`position.pb.h`) is not part of the sources; wherever a
  function serialises a record the serialiser is a parameter that may fail,
  as `SerializeToString` may.
* Functions running on different threads are interleaved at the granularity
  of whole calls.
-/

namespace PositionDistributor

/-! ## Data model -/

/-- One byte of a `std::string` or of a write buffer. -/
abbrev Byte := Fin 256

/-- An opaque serialised payload (`std::string`). -/
abbrev Message := List Byte

/-- Protobuf record `Trade` with fields `symbol` and `position`. -/
structure Trade where
  symbol : String
  position : ℚ
  deriving DecidableEq, Repr

/-- Protobuf record `SymbolPos` (the PositionUpdate of the specification). -/
structure SymbolPos where
  strategy_name : String
  symbol : String
  net_position : ℚ
  timestamp : Int
  deriving DecidableEq, Repr

/-- The mapped type `std::pair<double, int64_t>`: sizing and last update. -/
abbrev Sizing := ℚ × Int

/-- Inner map of `positions_`: symbol to sizing. -/
abbrev StrategyPositions := List (String × Sizing)

/-- The member `positions_`: strategy name to its symbols. -/
abbrev PositionTable := List (String × StrategyPositions)

/-! ## `std::unordered_map` -/

/-- Member `find`: the mapped value of key `k`, when present. -/
def umap_find {κ ν : Type} [DecidableEq κ] : List (κ × ν) → κ → Option ν
  | [], _ => none
  | (k0, v) :: rest, k => if k0 = k then some v else umap_find rest k

/-- Assignment through `operator[]`: overwrite the mapped value of `k`, or
add the key when it is absent. -/
def umap_set {κ ν : Type} [DecidableEq κ] : List (κ × ν) → κ → ν → List (κ × ν)
  | [], k, v => [(k, v)]
  | (k0, v0) :: rest, k, v =>
    if k0 = k then (k0, v) :: rest else (k0, v0) :: umap_set rest k v

/-- Read through `operator[]`: the mapped value, value-initialised when absent. -/
def umap_at {κ ν : Type} [DecidableEq κ] (m : List (κ × ν)) (k : κ) (dflt : ν) : ν :=
  (umap_find m k).getD dflt

/-- The stored pair of `(strategy, symbol)`, when both levels have the key. -/
def entry (positions_ : PositionTable) (strategy symbol : String) : Option Sizing :=
  match umap_find positions_ strategy with
  | none => none
  | some inner => umap_find inner symbol

/-- The effect of `positions_[strategy][symbol] = value` on the table. -/
def assign_entry (positions_ : PositionTable) (strategy symbol : String)
    (value : Sizing) : PositionTable :=
  umap_set positions_ strategy (umap_set (umap_at positions_ strategy []) symbol value)

/-- The pair read by `positions_[strategy][symbol]`, `(0.0, 0)` when new. -/
def entry_at (positions_ : PositionTable) (strategy symbol : String) : Sizing :=
  umap_at (umap_at positions_ strategy []) symbol (0, 0)

/-! ## Reconciliation engine (`Engine.h`) -/

namespace Engine

/-- Member `Engine::process_positions`: insert on first sighting of the pair,
otherwise overwrite only when the incoming timestamp is strictly greater. -/
def process_positions (positions_ : PositionTable) (pos : SymbolPos) : PositionTable :=
  if umap_find positions_ pos.strategy_name = none ∨
      umap_find (umap_at positions_ pos.strategy_name []) pos.symbol = none then
    assign_entry positions_ pos.strategy_name pos.symbol (pos.net_position, pos.timestamp)
  else
    let stored := entry_at positions_ pos.strategy_name pos.symbol
    if pos.timestamp > stored.2 then
      assign_entry positions_ pos.strategy_name pos.symbol (pos.net_position, pos.timestamp)
    else
      positions_

/-- The record built by `Engine::process_trade` after it has updated the
table: own strategy, the symbol of the trade, the new sizing and the stamp. -/
def derived_update (strategy_name_ : String) (now : Int) (positions_ : PositionTable)
    (trade : Trade) : SymbolPos :=
  { strategy_name := strategy_name_
    symbol := trade.symbol
    net_position := (entry_at positions_ strategy_name_ trade.symbol).1 + trade.position
    timestamp := now }

/-- Member `Engine::process_trade`, `now` being the reading of the system clock in
nanoseconds.  The result is the new table and the argument handed to
`Peer::broadcast`, which is absent when serialisation fails. -/
def process_trade (strategy_name_ : String) (serialize : SymbolPos → Option Message)
    (now : Int) (positions_ : PositionTable) (trade : Trade) :
    PositionTable × Option Message :=
  let first := (entry_at positions_ strategy_name_ trade.symbol).1 + trade.position
  let table := assign_entry positions_ strategy_name_ trade.symbol (first, now)
  let pos : SymbolPos :=
    { strategy_name := strategy_name_
      symbol := trade.symbol
      net_position := (entry_at table strategy_name_ trade.symbol).1
      timestamp := now }
  match serialize pos with
  | none => (table, none)
  | some pos_msg => (table, some pos_msg)

end Engine

namespace Engine

/-- One turn of the trade consumer: `process_trade` on the popped trade with
the clock reading it obtains; the argument handed to `Peer::broadcast` (none
when the update was dropped) is appended to the log of broadcasts. -/
def trade_step (strategy_name_ : String) (serialize : SymbolPos → Option Message)
    (st : PositionTable × List (Option Message)) (x : Trade × Int) :
    PositionTable × List (Option Message) :=
  let r := process_trade strategy_name_ serialize x.2 st.1 x.1
  (r.1, st.2 ++ [r.2])

/-- Trades applied one after another by `process_trade`, from table
`positions_` and an empty log of broadcasts. -/
def apply_trades (strategy_name_ : String) (serialize : SymbolPos → Option Message)
    (positions_ : PositionTable) (trades : List (Trade × Int)) :
    PositionTable × List (Option Message) :=
  trades.foldl (trade_step strategy_name_ serialize) (positions_, [])

end Engine

/-- Sum of the position deltas of a sequence of trades. -/
def deltas_sum (trades : List (Trade × Int)) : ℚ :=
  (trades.map (fun x => x.1.position)).sum

/-! ## Transport layer (`peer.h`): framing and fan-out -/

/-- A socket handle `std::shared_ptr<tcp::socket>`, identified by a number. -/
abbrev Socket := Nat

/-- The conversion `static_cast<uint32_t>` of a `size_t`. -/
def uint32_cast (n : Nat) : Nat := n % 2 ^ 32

/-- The byte of least weight of `n`. -/
def low_byte (n : Nat) : Byte := ⟨n % 256, Nat.mod_lt n (by decide)⟩

/-- The four bytes that `memcpy` reads from a `uint32_t` holding `htonl x`:
the digits of `x` in base 256, the most significant first. -/
def htonl_bytes (x : Nat) : List Byte :=
  [low_byte (x / 2 ^ 24), low_byte (x / 2 ^ 16), low_byte (x / 2 ^ 8), low_byte x]

/-- The value `ntohl` yields for a `uint32_t` filled with these bytes in
order (as `start_read` does with the four bytes it has read). -/
def ntohl_bytes (bytes : List Byte) : Nat :=
  bytes.foldl (fun acc b => acc * 256 + b.val) 0

/-- One write submitted to the strand: the socket and the buffer written. -/
structure Write where
  socket : Socket
  write_buffer : List Byte
  deriving DecidableEq, Repr

namespace Peer

/-- Member `Peer::send_message`: a buffer of `sizeof(uint32_t) + message.size()`
bytes, the length in network order copied to its start and the message
behind it, posted as one write on `socket`. -/
def send_message (socket : Socket) (message : Message) : Write :=
  { socket := socket
    write_buffer := htonl_bytes (uint32_cast message.length) ++ message }

/-- Member `Peer::broadcast`: `send_message` on every connection of the registry
`connections_`, in the iteration order of the container. -/
def broadcast (connections_ : List (Socket × Socket)) (message : Message) : List Write :=
  connections_.map (fun c => send_message c.2 message)

end Peer

/-! ## Event dispatch (`EventDispatcher.h`) -/

/-- Reference category of a C++ type. -/
inductive RefKind where
  | value
  | lvalue_ref
  | rvalue_ref
  deriving DecidableEq, Repr

/-- What kind of type stands under the reference of a C++ type: an object
type that is no pointer, a pointer, an array or a function. -/
inductive TypeShape where
  | object
  | pointer
  | array
  | function
  deriving DecidableEq, Repr

/-- A C++ type as it appears in a template argument list: its shape, the
spelling `name` (of the type itself for an object type, of the pointee for a
pointer, of the element for an array, of the function type for a function),
its top-level `const` qualifier and its reference category. -/
structure CppType where
  name : String
  is_const : Bool
  ref : RefKind
  shape : TypeShape := TypeShape.object
  deriving DecidableEq, Repr

/-- The type `std::decay_t<T>`: the reference is removed; an array becomes a
pointer to its element and a function a pointer to it; any other type loses
its top-level `const`. -/
def decay (t : CppType) : CppType :=
  match t.shape with
  | TypeShape.object =>
    { name := t.name, is_const := false, ref := RefKind.value, shape := TypeShape.object }
  | TypeShape.pointer =>
    { name := t.name, is_const := false, ref := RefKind.value, shape := TypeShape.pointer }
  | TypeShape.array =>
    { name := t.name, is_const := false, ref := RefKind.value, shape := TypeShape.pointer }
  | TypeShape.function =>
    { name := t.name, is_const := false, ref := RefKind.value, shape := TypeShape.pointer }

/-- A value passed to a handler: the bytes of a `std::string`, a
`std::shared_ptr<tcp::socket>` that owns a socket or is empty, a number, or
a pointer. -/
inductive Value where
  | text (bytes : Message)
  | socket (handle : Socket)
  | number (n : Int)
  | empty_socket
  | pointer (address : Nat)
  deriving DecidableEq, Repr

/-- The value an object holds after its move constructor has taken it as
source: a `std::shared_ptr` is empty, a `std::string` is left empty (the
standard says valid but unspecified; the common implementations leave it
empty), numbers and pointers are copied and keep their value. -/
def moved_from : Value → Value
  | Value.text _ => Value.text []
  | Value.socket _ => Value.empty_socket
  | Value.number n => Value.number n
  | Value.empty_socket => Value.empty_socket
  | Value.pointer a => Value.pointer a

/-- One argument of a publish call: the type deduced for the forwarding
reference parameter and the value passed. -/
structure Arg where
  type : CppType
  value : Value
  deriving DecidableEq, Repr

/-- The targets that `std::function` objects of this program wrap. -/
inductive Target where
  | incoming_message_handler
  | push_current_positions_thread
  | other (id : Nat)
  deriving DecidableEq, Repr

/-- One call of the target of a `std::function` with its argument values. -/
structure Call where
  target : Target
  args : List Value
  deriving DecidableEq, Repr

/-- The class `EventHandler<Args...>`: the template arguments (its dynamic
type), the wrapped `function_` (absent for an empty `std::function`) and the
stored argument tuple `args_`. -/
structure EventHandler where
  Args : List CppType
  function_ : Option Target
  args_ : Option (List Value)
  deriving DecidableEq, Repr

namespace EventHandler

/-- Member `EventHandler::set_args`: store the argument tuple. -/
def set_args (h : EventHandler) (args : List Value) : EventHandler :=
  { h with args_ := some args }

/-- Member `EventHandler::invoke`: apply `function_` to `args_` when both are set. -/
def invoke (h : EventHandler) : List Call :=
  match h.function_, h.args_ with
  | some f, some a => [{ target := f, args := a }]
  | _, _ => []

end EventHandler

/-- Whether `std::forward<Args>(arg)` hands the argument to the by-value
parameter of `set_args` as an rvalue that its move constructor can take:
the deduced type is no lvalue reference and is not `const`. -/
def forwards_rvalue (t : CppType) : Bool :=
  decide (t.ref ≠ RefKind.lvalue_ref) && !t.is_const

/-- The argument after `std::forward<Args>(arg)` has initialised a parameter
of `set_args`: moved from when forwarded as an rvalue, untouched otherwise. -/
def after_forward (a : Arg) : Arg :=
  if forwards_rvalue a.type then { a with value := moved_from a.value } else a

/-- The class `Event`: its vector `handlers_`. -/
abbrev Event := List EventHandler

namespace Event

/-- Member `Event::operator+=` with a `std::function<void(Args...)>`: a new
`EventHandler<Args...>` at the back of `handlers_`. -/
def subscribe (handlers_ : Event) (Args : List CppType) (handler : Option Target) : Event :=
  handlers_ ++ [{ Args := Args, function_ := handler, args_ := none }]

/-- Whether `dynamic_cast<EventHandler<std::decay_t<Args>...>*>` succeeds on
handler `h` for the published arguments. -/
def cast_succeeds (h : EventHandler) (args : List Arg) : Bool :=
  decide (h.Args = args.map (fun a => decay a.type))

/-- The loop of `Event::operator()` over the handlers from position `i` on:
the handlers afterwards, and for every handler on which `invoke` ran its
position and the calls that `invoke` made.  Every successful cast forwards
the arguments into `set_args`, so the handlers behind it see the arguments
as that forwarding has left them. -/
def publish_from (args : List Arg) : Nat → List EventHandler →
    List EventHandler × List (Nat × List Call)
  | _, [] => ([], [])
  | i, h :: rest =>
    if cast_succeeds h args then
      let h1 := h.set_args (args.map Arg.value)
      let r := publish_from (args.map after_forward) (i + 1) rest
      (h1 :: r.1, (i, h1.invoke) :: r.2)
    else
      let r := publish_from args (i + 1) rest
      (h :: r.1, r.2)

/-- Member `Event::operator()`: the publish call. -/
def publish (handlers_ : Event) (args : List Arg) : Event × List (Nat × List Call) :=
  publish_from args 0 handlers_

end Event

/-- One use of an `Event`: a subscription with `operator+=` or a publish
call with `operator()`. -/
inductive EventOp where
  | subscribe (Args : List CppType) (handler : Option Target)
  | publish (args : List Arg)
  deriving DecidableEq, Repr

namespace Event

/-- The vector `handlers_` after one use of the event. -/
def apply_op (handlers_ : Event) : EventOp → Event
  | EventOp.subscribe Args handler => subscribe handlers_ Args handler
  | EventOp.publish args => (publish handlers_ args).1

/-- The vector `handlers_` of an event constructed empty, after a history of
subscriptions and publish calls. -/
def after (ops : List EventOp) : Event :=
  ops.foldl apply_op []

end Event

/-- The subscriptions of a history in the order they were made: signature and
wrapped function of each. -/
def registrations (ops : List EventOp) : List (List CppType × Option Target) :=
  ops.filterMap (fun op =>
    match op with
    | EventOp.subscribe Args handler => some (Args, handler)
    | EventOp.publish _ => none)

/-- The calls that `invoke` makes on a handler wrapping `function_` once
`set_args` has stored `values`: one call, none for an empty `std::function`. -/
def invoke_calls (function_ : Option Target) (values : List Value) : List Call :=
  match function_ with
  | some f => [{ target := f, args := values }]
  | none => []

/-! ## Transport layer (`peer.h`): connection lifecycle -/

/-- The members of `Peer` that the connection lifecycle touches. -/
structure PeerState where
  received_message : Event
  connection_accepted : Event
  connections_ : List (Socket × Socket)
  deriving DecidableEq, Repr

/-- What one connection attempt meets: the resolver fails, the connect fails,
or the connection is established. -/
inductive ConnectOutcome where
  | resolve_failed
  | connect_failed
  | connected
  deriving DecidableEq, Repr

/-- Observable steps of the transport layer, in the order they happen. -/
inductive PeerStep where
  | attempt (host : String) (port : Nat) (max_retries : Int)
  | retry_scheduled (host : String) (port : Nat) (remaining_retries : Int)
      (retry_delay_ms : Int)
  | no_more_retries (host : String) (port : Nat)
  | invoked (handler : Nat) (calls : List Call)
  | registered (socket : Socket)
  | start_read (socket : Socket)
  | start_accept
  deriving DecidableEq, Repr

/-- Member `emplace` of `connections_`: no effect when the key is present. -/
def umap_emplace {κ ν : Type} [DecidableEq κ] (m : List (κ × ν)) (k : κ) (v : ν) :
    List (κ × ν) :=
  match umap_find m k with
  | some _ => m
  | none => m ++ [(k, v)]

/-- The type `std::shared_ptr<tcp::socket>`. -/
def socket_ptr : CppType :=
  { name := "std::shared_ptr<tcp::socket>", is_const := false, ref := RefKind.value }

/-- The type `std::string`. -/
def std_string : CppType :=
  { name := "std::string", is_const := false, ref := RefKind.value }

namespace Peer

/-- The completion handler of `async_connect` in `connect_to_peer` when the
connection is established: publish `connection_accepted()` without
arguments, add the socket to `connections_`, start reading. -/
def on_connected (p : PeerState) (socket : Socket) : PeerState × List PeerStep :=
  let r := Event.publish p.connection_accepted []
  ({ p with connection_accepted := r.1
            connections_ := umap_emplace p.connections_ socket socket },
   r.2.map (fun x => PeerStep.invoked x.1 x.2) ++
     [PeerStep.registered socket, PeerStep.start_read socket])

/-- The completion handler of `async_accept` in `start_accept` when a
connection was accepted: add the socket to `connections_`, publish
`connection_accepted(socket)`, start reading, accept again. -/
def on_accepted (p : PeerState) (socket : Socket) : PeerState × List PeerStep :=
  let r := Event.publish p.connection_accepted
    [{ type := { name := "std::shared_ptr<tcp::socket>", is_const := true,
                 ref := RefKind.lvalue_ref },
       value := Value.socket socket }]
  ({ p with connection_accepted := r.1
            connections_ := umap_emplace p.connections_ socket socket },
   [PeerStep.registered socket] ++ r.2.map (fun x => PeerStep.invoked x.1 x.2) ++
     [PeerStep.start_read socket, PeerStep.start_accept])

/-- Member `Peer::connect_to_peer` together with the timer of `Peer::schedule_retry`
(assumed to expire without error).  `outcome n` is what the attempt number
`n` meets and `socket_of n` the socket it creates; `attempt_no` numbers the
attempts of one chain from its first call. -/
def connect_to_peer (outcome : Nat → ConnectOutcome) (socket_of : Nat → Socket)
    (host : String) (port : Nat) (retry_delay_ms : Int) :
    (max_retries : Int) → (attempt_no : Nat) → PeerState → PeerState × List PeerStep
  | max_retries, attempt_no, p =>
    match outcome attempt_no with
    | ConnectOutcome.resolve_failed =>
      if h : max_retries > 0 then
        -- schedule_retry(host, port, max_retries - 1, retry_delay_ms)
        let r := connect_to_peer outcome socket_of host port retry_delay_ms
          (max_retries - 1) (attempt_no + 1) p
        (r.1, PeerStep.attempt host port max_retries ::
          PeerStep.retry_scheduled host port (max_retries - 1) retry_delay_ms :: r.2)
      else
        (p, [PeerStep.attempt host port max_retries, PeerStep.no_more_retries host port])
    | ConnectOutcome.connect_failed =>
      if h : max_retries > 0 then
        let r := connect_to_peer outcome socket_of host port retry_delay_ms
          (max_retries - 1) (attempt_no + 1) p
        (r.1, PeerStep.attempt host port max_retries ::
          PeerStep.retry_scheduled host port (max_retries - 1) retry_delay_ms :: r.2)
      else
        (p, [PeerStep.attempt host port max_retries, PeerStep.no_more_retries host port])
    | ConnectOutcome.connected =>
      let r := on_connected p (socket_of attempt_no)
      (r.1, PeerStep.attempt host port max_retries :: r.2)
termination_by max_retries _ _ => max_retries.toNat
decreasing_by
  all_goals simp_wf
  all_goals omega

end Peer

namespace Engine

/-- The subscriptions made by the constructor `Engine::Engine`: a handler of
signature `(std::string)` on `received_message` and a handler of signature
`(std::shared_ptr<tcp::socket>)` on `connection_accepted`, which starts the
thread running `push_current_positions`. -/
def subscribe_handlers (p : PeerState) : PeerState :=
  { p with
    received_message :=
      Event.subscribe p.received_message [std_string] (some Target.incoming_message_handler)
    connection_accepted :=
      Event.subscribe p.connection_accepted [socket_ptr]
        (some Target.push_current_positions_thread) }

end Engine

/-- The steps of `k` failed attempts in a row, the first with retry budget
`m`: each attempt is followed by the scheduling of a retry with the same
delay and a budget smaller by one, which the next attempt receives. -/
def retry_rounds (host : String) (port : Nat) (retry_delay_ms : Int) :
    Int → Nat → List PeerStep
  | _, 0 => []
  | m, k + 1 =>
    PeerStep.attempt host port m ::
      PeerStep.retry_scheduled host port (m - 1) retry_delay_ms ::
        retry_rounds host port retry_delay_ms (m - 1) k

/-- Whether a step is a connection attempt. -/
def PeerStep.is_attempt : PeerStep → Bool
  | PeerStep.attempt _ _ _ => true
  | _ => false

/-- Whether a step schedules a retry. -/
def PeerStep.is_retry : PeerStep → Bool
  | PeerStep.retry_scheduled _ _ _ _ => true
  | _ => false

/-! ## Consumer workers (`Engine.h`) -/

/-- The loop `while (running_.load()) { if (queue.pop(x)) process(*x); }`.
`spins` is the number of times the flag is read as set before it is read as
cleared; no record is pushed meanwhile.  The result is the state and the
queue when the loop is left. -/
def running_loop {σ α : Type} (process : σ → α → σ) : Nat → σ → List α → σ × List α
  | 0, st, q => (st, q)
  | n + 1, st, [] => running_loop process n st []
  | n + 1, st, x :: q => running_loop process n (process st x) q

/-- The loop `while (queue.pop(x)) { process(*x); }`. -/
def drain_loop {σ α : Type} (process : σ → α → σ) : σ → List α → σ × List α
  | st, [] => (st, [])
  | st, x :: q => drain_loop process (process st x) q

namespace Engine

/-- Member `Engine::consume_trades`: the running loop, then the loop that processes
what is left in `trades_queue_`.  Every queued trade comes with the clock
reading that `process_trade` will obtain for it.  The result is the state
and the queue when the worker returns. -/
def consume_trades (strategy_name_ : String) (serialize : SymbolPos → Option Message)
    (spins : Nat) (st : PositionTable × List (Option Message))
    (trades_queue_ : List (Trade × Int)) :
    (PositionTable × List (Option Message)) × List (Trade × Int) :=
  let r := running_loop (trade_step strategy_name_ serialize) spins st trades_queue_
  drain_loop (trade_step strategy_name_ serialize) r.1 r.2

/-- Member `Engine::consume_positions`: the running loop only; the worker returns
as soon as the flag is read as cleared. -/
def consume_positions (spins : Nat) (positions_ : PositionTable)
    (positions_queue_ : List SymbolPos) : PositionTable × List SymbolPos :=
  running_loop process_positions spins positions_ positions_queue_

end Engine

/-! ## Local command input (`utils.cpp`) -/

/-- The loop of `split` over the remaining characters of the stream:
`token` is what `getline` has extracted so far.  A token ends at the
delimiter or at the end of the stream, and empty tokens are not kept. -/
def split_chars (delimiter : Char) : List Char → List Char → List String
  | [], token => if token = [] then [] else [String.mk token]
  | c :: cs, token =>
    if c = delimiter then
      if token = [] then split_chars delimiter cs []
      else String.mk token :: split_chars delimiter cs []
    else split_chars delimiter cs (token ++ [c])

/-- The function `split` of `utils.cpp`. -/
def split (s : String) (delimiter : Char) : List String :=
  split_chars delimiter s.data []

/-- The function `parse_trade` of `utils.cpp`.  The library function
`std::stod` is a parameter: it yields the number read from a text, or nothing
when it throws.  An exception thrown by `parse_trade` is an error value. -/
def parse_trade (stod : String → Option ℚ) (input : String) : Except String Trade :=
  match split input (Char.ofNat 32) with
  | [symbol, text] =>
    match stod text with
    | some position => Except.ok { symbol := symbol, position := position }
    | none => Except.error "Invalid position value"
  | _ => Except.error "Invalid input format. Expected: SYMBOL POSITION"

/-! ## Table mutations -/

/-- A mutation of the position table: `process_positions` on a received
update, or `process_trade` on a local trade with the clock reading it gets. -/
inductive Mutation where
  | received (pos : SymbolPos)
  | local_trade (trade : Trade) (now : Int)
  deriving DecidableEq, Repr

namespace Engine

/-- The table after one mutation. -/
def mutate (strategy_name_ : String) (serialize : SymbolPos → Option Message)
    (positions_ : PositionTable) : Mutation → PositionTable
  | Mutation.received pos => process_positions positions_ pos
  | Mutation.local_trade trade now =>
    (process_trade strategy_name_ serialize now positions_ trade).1

/-- The update observed with one mutation: the received one, or the one
that `process_trade` derives. -/
def observe (strategy_name_ : String) (positions_ : PositionTable) : Mutation → SymbolPos
  | Mutation.received pos => pos
  | Mutation.local_trade trade now => derived_update strategy_name_ now positions_ trade

/-- Whether the clock reading of a local trade is not behind the timestamp
stored for its pair; a received update puts no condition. -/
def clock_ok (strategy_name_ : String) (positions_ : PositionTable) : Mutation → Bool
  | Mutation.received _ => true
  | Mutation.local_trade trade now =>
    match entry positions_ strategy_name_ trade.symbol with
    | none => true
    | some stored => decide (stored.2 ≤ now)

/-- One mutation on the state made of the table, the updates observed so far
and whether every clock reading so far passed `clock_ok`. -/
def mutation_step (strategy_name_ : String) (serialize : SymbolPos → Option Message)
    (st : PositionTable × List SymbolPos × Bool) (m : Mutation) :
    PositionTable × List SymbolPos × Bool :=
  (mutate strategy_name_ serialize st.1 m,
   st.2.1 ++ [observe strategy_name_ st.1 m],
   st.2.2 && clock_ok strategy_name_ st.1 m)

/-- A sequence of mutations from the empty table. -/
def run_mutations (strategy_name_ : String) (serialize : SymbolPos → Option Message)
    (ms : List Mutation) : PositionTable × List SymbolPos × Bool :=
  ms.foldl (mutation_step strategy_name_ serialize) ([], [], true)

end Engine

/-- The last-writer-wins invariant of a table against the updates observed:
every entry is carried by an observed update of its pair, no observed update
of the pair has a greater timestamp, and every observed pair has an entry. -/
def lww_invariant (positions_ : PositionTable) (observed : List SymbolPos) : Prop :=
  (∀ (s y : String) (e : Sizing), entry positions_ s y = some e →
    (∃ u ∈ observed, u.strategy_name = s ∧ u.symbol = y ∧
      u.net_position = e.1 ∧ u.timestamp = e.2) ∧
    (∀ u ∈ observed, u.strategy_name = s → u.symbol = y → u.timestamp ≤ e.2)) ∧
  (∀ u ∈ observed, entry positions_ u.strategy_name u.symbol ≠ none)

/-! ## The node: engine and transport together -/

namespace Engine

/-- The records that the loop of `Engine::push_current_positions` builds,
one for every symbol of `positions_[strategy_name_]`. -/
def snapshot_updates (strategy_name_ : String) (positions_ : PositionTable) :
    List SymbolPos :=
  (umap_at positions_ strategy_name_ []).map
    (fun x => { strategy_name := strategy_name_, symbol := x.1,
                net_position := x.2.1, timestamp := x.2.2 })

/-- Member `Engine::push_current_positions`: for every symbol of the own strategy
serialise the record and, unless that fails, `send_message` it on the socket.
Reading `positions_[strategy_name_]` adds an empty inner map when the
strategy has none.  The result is the table and the writes submitted. -/
def push_current_positions (strategy_name_ : String)
    (serialize : SymbolPos → Option Message) (positions_ : PositionTable)
    (socket : Socket) : PositionTable × List Write :=
  (umap_emplace positions_ strategy_name_ [],
   (snapshot_updates strategy_name_ positions_).filterMap
     (fun pos => (serialize pos).map (Peer.send_message socket)))

end Engine

/-- What happens to a node: an update received from a peer reaches
`process_positions`, a local trade reaches `process_trade` with a clock
reading, or a connection is accepted and the handler subscribed by the
engine pushes the snapshot to it. -/
inductive NodeEvent where
  | position_received (pos : SymbolPos)
  | local_trade (trade : Trade) (now : Int)
  | connection_accepted (socket : Socket)
  deriving DecidableEq, Repr

/-- The state of a node: table, connection registry, the writes submitted
so far, and the updates that its own `process_trade` steps have derived. -/
structure NodeState where
  positions_ : PositionTable
  connections_ : List (Socket × Socket)
  writes : List Write
  derived : List SymbolPos
  deriving DecidableEq, Repr

namespace Engine

/-- One event on a node with strategy `strategy_name_`. -/
def node_step (strategy_name_ : String) (serialize : SymbolPos → Option Message)
    (st : NodeState) : NodeEvent → NodeState
  | NodeEvent.position_received pos =>
    { st with positions_ := process_positions st.positions_ pos }
  | NodeEvent.local_trade trade now =>
    let r := process_trade strategy_name_ serialize now st.positions_ trade
    { st with
      positions_ := r.1
      writes := st.writes ++
        (match r.2 with
         | some pos_msg => Peer.broadcast st.connections_ pos_msg
         | none => [])
      derived := st.derived ++ [derived_update strategy_name_ now st.positions_ trade] }
  | NodeEvent.connection_accepted socket =>
    let r := push_current_positions strategy_name_ serialize st.positions_ socket
    { st with
      positions_ := r.1
      connections_ := umap_emplace st.connections_ socket socket
      writes := st.writes ++ r.2 }

/-- A sequence of events on a node started with an empty table and no
connection. -/
def run_node (strategy_name_ : String) (serialize : SymbolPos → Option Message)
    (events : List NodeEvent) : NodeState :=
  events.foldl (node_step strategy_name_ serialize) ⟨[], [], [], []⟩

end Engine

/-- Whether an event is a received update that carries the given strategy name. -/
def NodeEvent.receives_strategy (strategy : String) : NodeEvent → Bool
  | NodeEvent.position_received pos => decide (pos.strategy_name = strategy)
  | _ => false

/-! ## Transport layer (`peer.h`): the read loop -/

/-- Member `erase` of `connections_`: the entry of key `k` removed. -/
def umap_erase {κ ν : Type} [DecidableEq κ] (m : List (κ × ν)) (k : κ) : List (κ × ν) :=
  m.filter (fun x => decide (x.1 ≠ k))

/-- What a read loop has done when it ends: the peer, the payloads passed
to `received_message(...)` in order, the runs of `invoke` those publications
made, and the bytes that had arrived but were not delivered by a completed
read when the failing read ended the loop. -/
structure ReadResult where
  peer : PeerState
  published : List Message
  calls : List (Nat × List Call)
  unread : List Byte
  deriving DecidableEq, Repr

namespace Peer

/-- Member `Peer::start_read` on a connection over which the bytes `stream`
arrive before the peer closes.  A read of exactly `n` bytes completes when
`n` bytes are left and fails otherwise; a failed read erases the socket from
`connections_` and ends the loop.  After a completed header read the
length is `ntohl` of the four bytes; after a completed body read the
payload is published on `received_message` and the loop starts again. -/
def start_read (socket : Socket) : List Byte → PeerState → ReadResult
  | stream, p =>
    if stream.length < 4 then
      { peer := { p with connections_ := umap_erase p.connections_ socket }
        published := [], calls := [], unread := stream }
    else
      let msg_size := ntohl_bytes (stream.take 4)
      let body := stream.drop 4
      if body.length < msg_size then
        { peer := { p with connections_ := umap_erase p.connections_ socket }
          published := [], calls := [], unread := body }
      else
        let ev := Event.publish p.received_message
          [{ type := { name := "std::string", is_const := false, ref := RefKind.lvalue_ref },
             value := Value.text (body.take msg_size) }]
        let r := start_read socket (body.drop msg_size) { p with received_message := ev.1 }
        { peer := r.peer
          published := body.take msg_size :: r.published
          calls := ev.2 ++ r.calls
          unread := r.unread }
termination_by stream _ => stream.length
decreasing_by
  simp only [List.length_drop]
  omega

end Peer

/-- What a publish call makes of the matching subscriptions, listed in
order with their positions: `invoke` runs on each; the first receives the
published values, the ones behind it the values that forwarding has left. -/
def expected_invocations (args : List Arg)
    (matching : List (Nat × (List CppType × Option Target))) : List (Nat × List Call) :=
  match matching with
  | [] => []
  | x :: xs =>
    (x.1, invoke_calls x.2.2 (args.map Arg.value)) ::
      xs.map (fun y => (y.1, invoke_calls y.2.2 ((args.map after_forward).map Arg.value)))

/-! ## Lemmas on the map model -/

theorem umap_find_set_same {κ ν : Type} [DecidableEq κ] (m : List (κ × ν)) (k : κ) (v : ν) :
    umap_find (umap_set m k v) k = some v := by
  induction m with
  | nil => simp [umap_set, umap_find]
  | cons hd tl ih =>
    obtain ⟨k0, v0⟩ := hd
    by_cases h : k0 = k
    · simp [umap_set, umap_find, h]
    · simp [umap_set, umap_find, h, ih]

theorem umap_find_set_other {κ ν : Type} [DecidableEq κ] (m : List (κ × ν)) (k k1 : κ) (v : ν)
    (hne : k1 ≠ k) : umap_find (umap_set m k v) k1 = umap_find m k1 := by
  induction m with
  | nil =>
    have : ¬ k = k1 := fun h => hne h.symm
    simp [umap_set, umap_find, this]
  | cons hd tl ih =>
    obtain ⟨k0, v0⟩ := hd
    by_cases h : k0 = k
    · subst h
      have : ¬ k0 = k1 := fun h => hne h.symm
      simp [umap_set, umap_find, this]
    · by_cases h1 : k0 = k1
      · subst h1
        simp [umap_set, umap_find, h]
      · simp [umap_set, umap_find, h, h1, ih]

theorem entry_assign_same (t : PositionTable) (s y : String) (v : Sizing) :
    entry (assign_entry t s y v) s y = some v := by
  simp [entry, assign_entry, umap_find_set_same]

theorem entry_assign_other (t : PositionTable) (s y s1 y1 : String) (v : Sizing)
    (hne : ¬ (s1 = s ∧ y1 = y)) :
    entry (assign_entry t s y v) s1 y1 = entry t s1 y1 := by
  by_cases hs : s1 = s
  · subst hs
    have hy : y1 ≠ y := fun h => hne ⟨rfl, h⟩
    simp only [entry, assign_entry, umap_find_set_same, umap_find_set_other _ _ _ _ hy, umap_at]
    cases umap_find t s1 <;> simp [umap_find]
  · simp [entry, assign_entry, umap_find_set_other _ _ _ _ hs]

theorem entry_at_of_entry (t : PositionTable) (s y : String) (v : Sizing)
    (h : entry t s y = some v) : entry_at t s y = v := by
  unfold entry at h
  unfold entry_at umap_at
  cases hs : umap_find t s with
  | none => simp [hs] at h
  | some inner =>
    simp only [hs] at h
    simp [h]

theorem entry_at_of_none (t : PositionTable) (s y : String)
    (h : entry t s y = none) : entry_at t s y = (0, 0) := by
  unfold entry at h
  unfold entry_at umap_at
  cases hs : umap_find t s with
  | none => simp [umap_find]
  | some inner =>
    simp only [hs] at h
    simp [h]

/-- The first-sighting test of `process_positions` is the absence of the entry. -/
theorem first_sighting_iff (t : PositionTable) (s y : String) :
    (umap_find t s = none ∨ umap_find (umap_at t s []) y = none) ↔ entry t s y = none := by
  unfold entry umap_at
  cases hs : umap_find t s with
  | none => simp
  | some inner => simp

theorem process_positions_absent (t : PositionTable) (pos : SymbolPos)
    (h : entry t pos.strategy_name pos.symbol = none) :
    Engine.process_positions t pos =
      assign_entry t pos.strategy_name pos.symbol (pos.net_position, pos.timestamp) := by
  unfold Engine.process_positions
  rw [if_pos ((first_sighting_iff _ _ _).2 h)]

theorem process_positions_present (t : PositionTable) (pos : SymbolPos) (v : Sizing)
    (h : entry t pos.strategy_name pos.symbol = some v) :
    Engine.process_positions t pos =
      if pos.timestamp > v.2 then
        assign_entry t pos.strategy_name pos.symbol (pos.net_position, pos.timestamp)
      else t := by
  unfold Engine.process_positions
  have hn : ¬ (umap_find t pos.strategy_name = none ∨
      umap_find (umap_at t pos.strategy_name []) pos.symbol = none) := by
    rw [first_sighting_iff, h]; simp
  rw [if_neg hn]
  simp only [entry_at_of_entry _ _ _ _ h]

theorem process_trade_table (own : String) (ser : SymbolPos → Option Message) (now : Int)
    (t : PositionTable) (trade : Trade) :
    (Engine.process_trade own ser now t trade).1 =
      assign_entry t own trade.symbol ((entry_at t own trade.symbol).1 + trade.position, now) := by
  unfold Engine.process_trade
  simp only
  split <;> rfl

theorem process_trade_message (own : String) (ser : SymbolPos → Option Message) (now : Int)
    (t : PositionTable) (trade : Trade) :
    (Engine.process_trade own ser now t trade).2 =
      ser (Engine.derived_update own now t trade) := by
  unfold Engine.process_trade Engine.derived_update
  simp only [entry_at_of_entry _ _ _ _ (entry_assign_same _ _ _ _)]
  split <;> simp_all

/-! ## Last-writer-wins merge -/

theorem getElem?_snoc_cases {α : Type} (l : List α) (a u : α) (j : Nat)
    (h : (l ++ [a])[j]? = some u) :
    (j < l.length ∧ l[j]? = some u) ∨ (j = l.length ∧ u = a) := by
  rcases Nat.lt_trichotomy j l.length with hlt | heq | hgt
  · left
    rw [List.getElem?_append_left hlt] at h
    exact ⟨hlt, h⟩
  · right
    subst heq
    simp at h
    exact ⟨rfl, h.symm⟩
  · exfalso
    have : (l ++ [a])[j]? = none := by
      apply List.getElem?_eq_none
      simp
      omega
    rw [this] at h
    cases h

/-- C1 (LWW convergence).  A non-empty sequence of updates that all carry the
pair `(s, y)`, applied in the given order by `process_positions` to the empty
table, leaves for `(s, y)` the net position and timestamp of the update `w`
at an index `i` such that no update has a greater timestamp and every update
applied before `i` has a strictly smaller one: the update of maximum
timestamp, the first applied among those of equal maximum. -/
theorem lww_convergence (s y : String) (us : List SymbolPos) (hne : us ≠ [])
    (hkey : ∀ u ∈ us, u.strategy_name = s ∧ u.symbol = y) :
    ∃ (i : Nat) (w : SymbolPos), us[i]? = some w ∧
      entry (us.foldl Engine.process_positions []) s y
        = some (w.net_position, w.timestamp) ∧
      (∀ (j : Nat) (u : SymbolPos), us[j]? = some u → u.timestamp ≤ w.timestamp) ∧
      (∀ (j : Nat) (u : SymbolPos), j < i → us[j]? = some u → u.timestamp < w.timestamp) := by
  induction us using List.reverseRecOn with
  | nil => exact absurd rfl hne
  | append_singleton l a ih =>
    have ha : a.strategy_name = s ∧ a.symbol = y := hkey a (by simp)
    obtain ⟨has, hay⟩ := ha
    rw [List.foldl_append]
    simp only [List.foldl_cons, List.foldl_nil]
    by_cases hl : l = []
    · subst hl
      refine ⟨0, a, by simp, ?_, ?_, ?_⟩
      · have hnone : entry ([] : PositionTable) a.strategy_name a.symbol = none := rfl
        simp only [List.foldl_nil]
        rw [process_positions_absent _ _ hnone, has, hay, entry_assign_same]
      · intro j u hj
        rcases getElem?_snoc_cases [] a u j hj with ⟨hlt, _⟩ | ⟨_, hu⟩
        · simp at hlt
        · rw [hu]
      · intro j u hj
        omega
    · obtain ⟨i, w, hiw, hent, hmax, hfirst⟩ :=
        ih hl (fun u hu => hkey u (by simp [hu]))
      have hent2 : entry (l.foldl Engine.process_positions []) a.strategy_name a.symbol
          = some (w.net_position, w.timestamp) := by rw [has, hay]; exact hent
      have hilt : i < l.length := by
        by_contra hcon
        have : l[i]? = none := List.getElem?_eq_none (by omega)
        rw [this] at hiw
        cases hiw
      rw [process_positions_present _ _ _ hent2]
      by_cases hgt : a.timestamp > w.timestamp
      · rw [if_pos hgt]
        refine ⟨l.length, a, by simp, ?_, ?_, ?_⟩
        · rw [has, hay, entry_assign_same]
        · intro j u hj
          rcases getElem?_snoc_cases l a u j hj with ⟨_, hu⟩ | ⟨_, hu⟩
          · have := hmax j u hu
            omega
          · rw [hu]
        · intro j u hjlt hj
          rcases getElem?_snoc_cases l a u j hj with ⟨_, hu⟩ | ⟨hjl, _⟩
          · have := hmax j u hu
            omega
          · omega
      · rw [if_neg hgt]
        refine ⟨i, w, ?_, hent, ?_, ?_⟩
        · rw [List.getElem?_append_left hilt]
          exact hiw
        · intro j u hj
          rcases getElem?_snoc_cases l a u j hj with ⟨_, hu⟩ | ⟨_, hu⟩
          · exact hmax j u hu
          · rw [hu]
            omega
        · intro j u hjlt hj
          rcases getElem?_snoc_cases l a u j hj with ⟨_, hu⟩ | ⟨hjl, _⟩
          · exact hfirst j u hjlt hu
          · omega

/-- Witness of C1: three updates of `alpha/AAPL`, two of them sharing the
maximum timestamp. -/
theorem lww_convergence_witness :
    ∃ (i : Nat) (w : SymbolPos), ([⟨"alpha", "AAPL", 5, 10⟩, ⟨"alpha", "AAPL", 7, 30⟩,
              ⟨"alpha", "AAPL", 9, 30⟩] : List SymbolPos)[i]? = some w ∧
      entry (([⟨"alpha", "AAPL", 5, 10⟩, ⟨"alpha", "AAPL", 7, 30⟩,
              ⟨"alpha", "AAPL", 9, 30⟩] : List SymbolPos).foldl
                Engine.process_positions []) "alpha" "AAPL"
        = some (w.net_position, w.timestamp) ∧
      (∀ (j : Nat) (u : SymbolPos), ([⟨"alpha", "AAPL", 5, 10⟩, ⟨"alpha", "AAPL", 7, 30⟩,
              ⟨"alpha", "AAPL", 9, 30⟩] : List SymbolPos)[j]? = some u →
          u.timestamp ≤ w.timestamp) ∧
      (∀ (j : Nat) (u : SymbolPos), j < i → ([⟨"alpha", "AAPL", 5, 10⟩, ⟨"alpha", "AAPL", 7, 30⟩,
              ⟨"alpha", "AAPL", 9, 30⟩] : List SymbolPos)[j]? = some u →
          u.timestamp < w.timestamp) :=
  lww_convergence "alpha" "AAPL" _ (by simp) (by simp)

/-! ## Trade accumulation -/

theorem apply_trades_snoc (own : String) (ser : SymbolPos → Option Message)
    (t0 : PositionTable) (ts : List (Trade × Int)) (x : Trade × Int) :
    Engine.apply_trades own ser t0 (ts ++ [x]) =
      Engine.trade_step own ser (Engine.apply_trades own ser t0 ts) x := by
  simp [Engine.apply_trades, List.foldl_append]

theorem deltas_sum_snoc (ts : List (Trade × Int)) (x : Trade × Int) :
    deltas_sum (ts ++ [x]) = deltas_sum ts + x.1.position := by
  simp [deltas_sum]

theorem apply_trades_log_length (own : String) (ser : SymbolPos → Option Message)
    (t0 : PositionTable) (ts : List (Trade × Int)) :
    (Engine.apply_trades own ser t0 ts).2.length = ts.length := by
  induction ts using List.reverseRecOn with
  | nil => simp [Engine.apply_trades]
  | append_singleton l a ih =>
    rw [apply_trades_snoc]
    simp [Engine.trade_step, ih]

/-- The running sum is what `positions_[own][sym].first` reads after the trades. -/
theorem apply_trades_sizing (own sym : String) (ser : SymbolPos → Option Message)
    (t0 : PositionTable) (h0 : entry t0 own sym = none) (ts : List (Trade × Int))
    (hsym : ∀ x ∈ ts, x.1.symbol = sym) :
    (entry_at (Engine.apply_trades own ser t0 ts).1 own sym).1 = deltas_sum ts := by
  induction ts using List.reverseRecOn with
  | nil => simp [Engine.apply_trades, entry_at_of_none _ _ _ h0, deltas_sum]
  | append_singleton l a ih =>
    have ha : a.1.symbol = sym := hsym a (by simp)
    have ih1 := ih (fun x hx => hsym x (by simp [hx]))
    rw [apply_trades_snoc, deltas_sum_snoc]
    simp only [Engine.trade_step, process_trade_table, ha]
    rw [entry_at_of_entry _ _ _ _ (entry_assign_same _ _ _ _), ih1]

/-- The last trade of a sequence: entry, and what is handed to broadcast. -/
theorem apply_trades_last (own sym : String) (ser : SymbolPos → Option Message)
    (t0 : PositionTable) (h0 : entry t0 own sym = none) (l : List (Trade × Int))
    (a : Trade × Int) (hsym : ∀ x ∈ l ++ [a], x.1.symbol = sym) :
    entry (Engine.apply_trades own ser t0 (l ++ [a])).1 own sym
        = some (deltas_sum (l ++ [a]), a.2) ∧
      (Engine.apply_trades own ser t0 (l ++ [a])).2 =
        (Engine.apply_trades own ser t0 l).2 ++
          [ser ⟨own, sym, deltas_sum (l ++ [a]), a.2⟩] := by
  have ha : a.1.symbol = sym := hsym a (by simp)
  have hl := apply_trades_sizing own sym ser t0 h0 l (fun x hx => hsym x (by simp [hx]))
  rw [apply_trades_snoc, deltas_sum_snoc]
  constructor
  · simp only [Engine.trade_step, process_trade_table, ha]
    rw [entry_assign_same, hl]
  · simp only [Engine.trade_step, process_trade_message, Engine.derived_update, ha, hl]

theorem apply_trades_log_take (own : String) (ser : SymbolPos → Option Message)
    (t0 : PositionTable) (l m : List (Trade × Int)) :
    (Engine.apply_trades own ser t0 (l ++ m)).2.take l.length =
      (Engine.apply_trades own ser t0 l).2 := by
  induction m using List.reverseRecOn with
  | nil =>
    rw [List.append_nil, ← apply_trades_log_length own ser t0 l, List.take_length]
  | append_singleton m a ih =>
    rw [← List.append_assoc, apply_trades_snoc]
    simp only [Engine.trade_step]
    rw [List.take_append_of_le_length, ih]
    rw [apply_trades_log_length]
    simp

theorem take_succ_of_getElem? {α : Type} (l : List α) (i : Nat) (x : α)
    (h : l[i]? = some x) : l.take (i + 1) = l.take i ++ [x] := by
  rw [List.take_succ, h]
  rfl

/-- C2 (trade accumulation), amended.  Trades on one symbol `sym`, applied in
order by `process_trade` (the i-th with clock reading `x.2`) to a table with
no entry for `(own, sym)`: every trade adds one element to the log of
broadcasts; after the i-th trade the entry of `(own, sym)` holds the exact
sum of the first i deltas with the clock reading as timestamp; and what the
i-th trade hands to `Peer::broadcast` is the serialisation of the update
`(own, sym, that sum, that timestamp)`: one message when serialisation
succeeds, nothing when it fails. -/
theorem trade_accumulation (own sym : String) (ser : SymbolPos → Option Message)
    (t0 : PositionTable) (h0 : entry t0 own sym = none) (ts : List (Trade × Int))
    (hsym : ∀ x ∈ ts, x.1.symbol = sym) :
    (Engine.apply_trades own ser t0 ts).2.length = ts.length ∧
    ∀ (i : Nat) (x : Trade × Int), ts[i]? = some x →
      entry (Engine.apply_trades own ser t0 (ts.take (i + 1))).1 own sym
          = some (deltas_sum (ts.take (i + 1)), x.2) ∧
      (Engine.apply_trades own ser t0 ts).2[i]?
          = some (ser ⟨own, sym, deltas_sum (ts.take (i + 1)), x.2⟩) := by
  refine ⟨apply_trades_log_length own ser t0 ts, ?_⟩
  intro i x hix
  have htake := take_succ_of_getElem? ts i x hix
  have hilt : i < ts.length := by
    by_contra hcon
    rw [List.getElem?_eq_none (by omega)] at hix
    cases hix
  have hsym1 : ∀ z ∈ ts.take i ++ [x], z.1.symbol = sym := by
    intro z hz
    rw [← htake] at hz
    exact hsym z (List.mem_of_mem_take hz)
  obtain ⟨hent, hlog⟩ := apply_trades_last own sym ser t0 h0 (ts.take i) x hsym1
  rw [htake]
  refine ⟨hent, ?_⟩
  have hsplit : ts = (ts.take i ++ [x]) ++ ts.drop (i + 1) := by
    rw [← htake, List.take_append_drop]
  have hpre := apply_trades_log_take own ser t0 (ts.take i ++ [x]) (ts.drop (i + 1))
  rw [← hsplit] at hpre
  have hlen : (ts.take i ++ [x]).length = i + 1 := by
    simp [List.length_take]
    omega
  rw [hlen] at hpre
  rw [← List.getElem?_take_of_succ, hpre, hlog]
  have hli : (Engine.apply_trades own ser t0 (ts.take i)).2.length = i := by
    rw [apply_trades_log_length, List.length_take]
    omega
  rw [List.getElem?_append_right (by omega), hli]
  simp

/-- Witness of C2: two trades on `AAPL` by strategy `alpha`, empty table, a
serialiser that encodes every update as the empty message. -/
theorem trade_accumulation_witness :
    (Engine.apply_trades "alpha" (fun _ => some []) []
        [(⟨"AAPL", 100⟩, 7), (⟨"AAPL", -30⟩, 9)]).2.length
      = [((⟨"AAPL", 100⟩ : Trade), (7 : Int)), (⟨"AAPL", -30⟩, 9)].length ∧
    ∀ (i : Nat) (x : Trade × Int),
      [((⟨"AAPL", 100⟩ : Trade), (7 : Int)), (⟨"AAPL", -30⟩, 9)][i]? = some x →
      entry (Engine.apply_trades "alpha" (fun _ => some []) []
          ([((⟨"AAPL", 100⟩ : Trade), (7 : Int)), (⟨"AAPL", -30⟩, 9)].take (i + 1))).1
            "alpha" "AAPL"
          = some (deltas_sum
              ([((⟨"AAPL", 100⟩ : Trade), (7 : Int)), (⟨"AAPL", -30⟩, 9)].take (i + 1)), x.2) ∧
      (Engine.apply_trades "alpha" (fun _ => some []) []
          [(⟨"AAPL", 100⟩, 7), (⟨"AAPL", -30⟩, 9)]).2[i]?
          = some ((fun _ => some []) (⟨"alpha", "AAPL", deltas_sum
              ([((⟨"AAPL", 100⟩ : Trade), (7 : Int)), (⟨"AAPL", -30⟩, 9)].take (i + 1)),
                x.2⟩ : SymbolPos)) :=
  trade_accumulation "alpha" "AAPL" (fun _ => some []) [] rfl _ (by simp)

/-- Counterexample to C2 as stated: when `SerializeToString` fails,
`process_trade` updates the table and returns before `Peer::broadcast`, so
the trade hands no update to it. -/
theorem trade_accumulation_counterexample :
    entry [] "alpha" "AAPL" = none ∧
    (Engine.apply_trades "alpha" (fun _ => none) [] [(⟨"AAPL", 100⟩, 7)]).2 = [none] ∧
    ¬ ∃ msg : Message,
      (Engine.process_trade "alpha" (fun _ => none) 7 [] ⟨"AAPL", 100⟩).2 = some msg := by
  refine ⟨rfl, ?_, ?_⟩
  · simp [Engine.apply_trades, Engine.trade_step, process_trade_message]
  · simp [process_trade_message]

/-! ## Broadcast fan-out framing -/

theorem htonl_bytes_length (x : Nat) : (htonl_bytes x).length = 4 := rfl

theorem send_message_header (socket : Socket) (message : Message) :
    (Peer.send_message socket message).write_buffer.take 4
      = htonl_bytes (uint32_cast message.length) := by
  simp [Peer.send_message, htonl_bytes]

theorem send_message_body (socket : Socket) (message : Message) :
    (Peer.send_message socket message).write_buffer.drop 4 = message := by
  simp [Peer.send_message, htonl_bytes]

theorem ntohl_htonl (x : Nat) (hx : x < 2 ^ 32) : ntohl_bytes (htonl_bytes x) = x := by
  simp only [ntohl_bytes, htonl_bytes, low_byte, List.foldl_cons, List.foldl_nil]
  omega

/-- C3 (broadcast fan-out framing), amended.  For a payload of `S < 2^32`
bytes and a registry of `N` connections, `Peer::broadcast` submits `N`
writes, one on each registered socket in order; every write buffer has
`4 + S` bytes, its first four bytes are the base-256 digits of `S`, most
significant first (so that `ntohl` of them is `S`), and the remaining bytes
are the payload. -/
theorem broadcast_framing (connections_ : List (Socket × Socket)) (message : Message)
    (hS : message.length < 2 ^ 32) :
    (Peer.broadcast connections_ message).length = connections_.length ∧
    (Peer.broadcast connections_ message).map Write.socket = connections_.map Prod.snd ∧
    ∀ w ∈ Peer.broadcast connections_ message,
      w.write_buffer.length = 4 + message.length ∧
      (w.write_buffer.take 4).map Fin.val =
        [message.length / 2 ^ 24, message.length / 2 ^ 16 % 256,
          message.length / 2 ^ 8 % 256, message.length % 256] ∧
      ntohl_bytes (w.write_buffer.take 4) = message.length ∧
      w.write_buffer.drop 4 = message := by
  refine ⟨by simp [Peer.broadcast], by simp [Peer.broadcast, Peer.send_message], ?_⟩
  intro w hw
  simp only [Peer.broadcast, List.mem_map] at hw
  obtain ⟨c, _, rfl⟩ := hw
  have hcast : uint32_cast message.length = message.length := Nat.mod_eq_of_lt hS
  refine ⟨?_, ?_, ?_, send_message_body _ _⟩
  · simp [Peer.send_message, htonl_bytes]
    omega
  · rw [send_message_header, hcast]
    simp only [htonl_bytes, low_byte, List.map_cons, List.map_nil]
    have : message.length / 2 ^ 24 % 256 = message.length / 2 ^ 24 := by
      apply Nat.mod_eq_of_lt
      omega
    rw [this]
  · rw [send_message_header, hcast]
    exact ntohl_htonl _ hS

/-- Witness of C3: a payload of three bytes broadcast to two connections. -/
theorem broadcast_framing_witness :
    (Peer.broadcast [(4, 4), (9, 9)] [1, 2, 3]).length
      = ([(4, 4), (9, 9)] : List (Socket × Socket)).length ∧
    (Peer.broadcast [(4, 4), (9, 9)] [1, 2, 3]).map Write.socket
      = ([(4, 4), (9, 9)] : List (Socket × Socket)).map Prod.snd ∧
    ∀ w ∈ Peer.broadcast [(4, 4), (9, 9)] [1, 2, 3],
      w.write_buffer.length = 4 + ([1, 2, 3] : Message).length ∧
      (w.write_buffer.take 4).map Fin.val =
        [([1, 2, 3] : Message).length / 2 ^ 24, ([1, 2, 3] : Message).length / 2 ^ 16 % 256,
          ([1, 2, 3] : Message).length / 2 ^ 8 % 256, ([1, 2, 3] : Message).length % 256] ∧
      ntohl_bytes (w.write_buffer.take 4) = ([1, 2, 3] : Message).length ∧
      w.write_buffer.drop 4 = [1, 2, 3] :=
  broadcast_framing [(4, 4), (9, 9)] [1, 2, 3] (by decide)

/-- Counterexample to C3 as stated: for a payload of `2^32` bytes the cast
to `uint32_t` wraps, the four header bytes are all zero and decode to 0, not
to the payload length. -/
theorem broadcast_framing_counterexample :
    (List.replicate (2 ^ 32) (0 : Byte)).length = 4294967296 ∧
    (Peer.broadcast [(4, 4)] (List.replicate (2 ^ 32) (0 : Byte))).map
        (fun w => (w.write_buffer.take 4).map Fin.val) = [[0, 0, 0, 0]] ∧
    (Peer.broadcast [(4, 4)] (List.replicate (2 ^ 32) (0 : Byte))).map
        (fun w => ntohl_bytes (w.write_buffer.take 4)) = [0] := by
  refine ⟨List.length_replicate _ _, ?_, ?_⟩
  · simp only [Peer.broadcast, List.map_cons, List.map_nil, send_message_header,
      List.length_replicate]
    rfl
  · simp only [Peer.broadcast, List.map_cons, List.map_nil, send_message_header,
      List.length_replicate]
    rfl

/-! ## Event dispatch -/


theorem after_forward_type (a : Arg) : (after_forward a).type = a.type := by
  unfold after_forward
  split <;> rfl

theorem moved_from_idem (v : Value) : moved_from (moved_from v) = moved_from v := by
  cases v <;> rfl

theorem after_forward_idem (a : Arg) : after_forward (after_forward a) = after_forward a := by
  by_cases h : forwards_rvalue a.type = true
  · simp [after_forward, h, moved_from_idem]
  · simp [after_forward, h]

theorem after_forward_map_idem (args : List Arg) :
    (args.map after_forward).map after_forward = args.map after_forward := by
  simp [List.map_map, Function.comp_def, after_forward_idem]

theorem after_forward_map_types (args : List Arg) :
    (args.map after_forward).map (fun a => decay a.type) = args.map (fun a => decay a.type) := by
  simp [List.map_map, Function.comp_def, after_forward_type]

theorem set_args_invoke (h : EventHandler) (values : List Value) :
    (h.set_args values).invoke = invoke_calls h.function_ values := by
  unfold EventHandler.set_args EventHandler.invoke invoke_calls
  cases h.function_ <;> rfl

/-- Once forwarding changes the arguments no more, every matching handler
behind receives the same values. -/
theorem publish_from_settled (args : List Arg) (hfix : args.map after_forward = args)
    (hs : List EventHandler) :
    ∀ i : Nat, (Event.publish_from args i hs).2 =
      ((List.enumFrom i (hs.map (fun h => (h.Args, h.function_)))).filter
          (fun x => decide (x.2.1 = args.map (fun a => decay a.type)))).map
        (fun x => (x.1, invoke_calls x.2.2 (args.map Arg.value))) := by
  induction hs with
  | nil => intro i; simp [Event.publish_from]
  | cons h rest ih =>
    intro i
    by_cases hc : h.Args = args.map (fun a => decay a.type)
    · simp only [Event.publish_from, Event.cast_succeeds, hc, decide_True, if_true, hfix,
        List.map_cons, List.enumFrom_cons, List.filter_cons, set_args_invoke, ih (i + 1)]
    · simp only [Event.publish_from, Event.cast_succeeds, hc, decide_False, List.map_cons,
        List.enumFrom_cons, List.filter_cons, ih (i + 1)]
      simp

theorem publish_from_invocations (args : List Arg) (hs : List EventHandler) :
    ∀ i : Nat, (Event.publish_from args i hs).2 =
      expected_invocations args
        ((List.enumFrom i (hs.map (fun h => (h.Args, h.function_)))).filter
          (fun x => decide (x.2.1 = args.map (fun a => decay a.type)))) := by
  induction hs with
  | nil => intro i; simp [Event.publish_from, expected_invocations]
  | cons h rest ih =>
    intro i
    by_cases hc : h.Args = args.map (fun a => decay a.type)
    · have hset := publish_from_settled (args.map after_forward)
        (after_forward_map_idem args) rest (i + 1)
      rw [after_forward_map_types] at hset
      simp only [Event.publish_from, Event.cast_succeeds, hc, decide_True, if_true,
        List.map_cons, List.enumFrom_cons, List.filter_cons, set_args_invoke, hset,
        expected_invocations]
    · simp only [Event.publish_from, Event.cast_succeeds, hc, decide_False, List.map_cons,
        List.enumFrom_cons, List.filter_cons, ih (i + 1)]
      simp

theorem publish_from_handlers (args : List Arg) (hs : List EventHandler) :
    ∀ i : Nat, (Event.publish_from args i hs).1.map (fun h => (h.Args, h.function_))
      = hs.map (fun h => (h.Args, h.function_)) := by
  induction hs generalizing args with
  | nil => intro i; simp [Event.publish_from]
  | cons h rest ih =>
    intro i
    by_cases hc : Event.cast_succeeds h args = true
    · simp [Event.publish_from, hc, EventHandler.set_args, ih]
    · simp [Event.publish_from, hc, ih]

/-- The handlers of an event are its subscriptions, in the order made. -/
theorem after_registrations (ops : List EventOp) :
    (Event.after ops).map (fun h => (h.Args, h.function_)) = registrations ops := by
  induction ops using List.reverseRecOn with
  | nil => rfl
  | append_singleton l op ih =>
    have hstep : Event.after (l ++ [op]) = Event.apply_op (Event.after l) op := by
      simp [Event.after, List.foldl_append]
    rw [hstep]
    cases op with
    | subscribe Args handler =>
      simp [Event.apply_op, Event.subscribe, registrations, List.filterMap_append, ih]
    | publish args =>
      simp only [Event.apply_op, Event.publish, publish_from_handlers, ih]
      simp [registrations, List.filterMap_append]

/-- Arguments that are all forwarded as lvalues or as `const` reach every
matching handler with the published values. -/
theorem publish_copied_arguments (ops : List EventOp) (args : List Arg)
    (hcopy : ∀ a ∈ args, forwards_rvalue a.type = false) :
    (Event.publish (Event.after ops) args).2 =
      (((registrations ops).enum).filter
          (fun x => decide (x.2.1 = args.map (fun a => decay a.type)))).map
        (fun x => (x.1, invoke_calls x.2.2 (args.map Arg.value))) := by
  have hfix : args.map after_forward = args := by
    conv_rhs => rw [← List.map_id args]
    apply List.map_congr_left
    intro a ha
    simp [after_forward, hcopy a ha]
  have h := publish_from_settled args hfix (Event.after ops) 0
  rw [after_registrations] at h
  exact h

/-- C8 (event dispatch): what the code does, and the failing input.  After
any history of subscriptions and publish calls, a publish call runs `invoke`
once on each handler whose signature equals the decayed argument types, in
the order of subscription, and the handlers stay the subscriptions made, in
order.  The first matching handler receives the published values, the ones
behind it receive what `std::forward` inside the loop has left.  Failing
input: two handlers of signature `(std::string)` and the rvalue string
`hi`: handler 0 is called with `hi`, handler 1 with the moved-from empty
string; an rvalue `std::shared_ptr` reaches handler 1 empty.  Published as
an lvalue, the same string reaches both handlers; and a string literal, an
array, matches the handler of signature `(const char*)`. -/
theorem event_dispatch_moves_rvalue :
    (∀ (ops : List EventOp) (args : List Arg),
      (Event.publish (Event.after ops) args).2 =
        expected_invocations args
          (((registrations ops).enum).filter
            (fun x => decide (x.2.1 = args.map (fun a => decay a.type))))) ∧
    (∀ (ops : List EventOp) (args : List Arg),
      (Event.publish (Event.after ops) args).1.map (fun h => (h.Args, h.function_))
        = registrations ops) ∧
    (Event.publish
      (Event.after [EventOp.subscribe [std_string] (some (Target.other 0)),
                    EventOp.subscribe [std_string] (some (Target.other 1))])
      [⟨{ name := "std::string", is_const := false, ref := RefKind.value },
        Value.text [104, 105]⟩]).2 =
      [(0, [⟨Target.other 0, [Value.text [104, 105]]⟩]),
       (1, [⟨Target.other 1, [Value.text []]⟩])] ∧
    (Event.publish
      (Event.after [EventOp.subscribe [socket_ptr] (some (Target.other 0)),
                    EventOp.subscribe [socket_ptr] (some (Target.other 1))])
      [⟨{ name := "std::shared_ptr<tcp::socket>", is_const := false, ref := RefKind.value },
        Value.socket 7⟩]).2 =
      [(0, [⟨Target.other 0, [Value.socket 7]⟩]),
       (1, [⟨Target.other 1, [Value.empty_socket]⟩])] ∧
    (Event.publish
      (Event.after [EventOp.subscribe [std_string] (some (Target.other 0)),
                    EventOp.subscribe [std_string] (some (Target.other 1))])
      [⟨{ name := "std::string", is_const := false, ref := RefKind.lvalue_ref },
        Value.text [104, 105]⟩]).2 =
      [(0, [⟨Target.other 0, [Value.text [104, 105]]⟩]),
       (1, [⟨Target.other 1, [Value.text [104, 105]]⟩])] ∧
    (Event.publish
      (Event.after [EventOp.subscribe [std_string] (some (Target.other 0)),
                    EventOp.subscribe
                      [{ name := "const char", is_const := false, ref := RefKind.value,
                         shape := TypeShape.pointer }] (some (Target.other 1))])
      [⟨{ name := "const char", is_const := false, ref := RefKind.lvalue_ref,
          shape := TypeShape.array }, Value.pointer 4096⟩]).2 =
      [(1, [⟨Target.other 1, [Value.pointer 4096]⟩])] := by
  refine ⟨?_, ?_, by decide, by decide, by decide, by decide⟩
  · intro ops args
    have h := publish_from_invocations args (Event.after ops) 0
    rw [after_registrations] at h
    exact h
  · intro ops args
    unfold Event.publish
    rw [publish_from_handlers, after_registrations]

/-! ## Reconnect and backoff -/

theorem connect_step_fail (outcome : Nat → ConnectOutcome) (socket_of : Nat → Socket)
    (host : String) (port : Nat) (delay m : Int) (n : Nat) (p : PeerState)
    (hf : outcome n ≠ ConnectOutcome.connected) (hm : m > 0) :
    Peer.connect_to_peer outcome socket_of host port delay m n p =
      ((Peer.connect_to_peer outcome socket_of host port delay (m - 1) (n + 1) p).1,
        PeerStep.attempt host port m :: PeerStep.retry_scheduled host port (m - 1) delay ::
          (Peer.connect_to_peer outcome socket_of host port delay (m - 1) (n + 1) p).2) := by
  rw [Peer.connect_to_peer]
  cases ho : outcome n with
  | resolve_failed => simp [hm]
  | connect_failed => simp [hm]
  | connected => exact absurd ho hf

theorem connect_step_stop (outcome : Nat → ConnectOutcome) (socket_of : Nat → Socket)
    (host : String) (port : Nat) (delay m : Int) (n : Nat) (p : PeerState)
    (hf : outcome n ≠ ConnectOutcome.connected) (hm : ¬ m > 0) :
    Peer.connect_to_peer outcome socket_of host port delay m n p =
      (p, [PeerStep.attempt host port m, PeerStep.no_more_retries host port]) := by
  rw [Peer.connect_to_peer]
  cases ho : outcome n with
  | resolve_failed => simp [hm]
  | connect_failed => simp [hm]
  | connected => exact absurd ho hf

theorem connect_step_ok (outcome : Nat → ConnectOutcome) (socket_of : Nat → Socket)
    (host : String) (port : Nat) (delay m : Int) (n : Nat) (p : PeerState)
    (ho : outcome n = ConnectOutcome.connected) :
    Peer.connect_to_peer outcome socket_of host port delay m n p =
      ((Peer.on_connected p (socket_of n)).1,
        PeerStep.attempt host port m :: (Peer.on_connected p (socket_of n)).2) := by
  rw [Peer.connect_to_peer]
  simp [ho]

/-- After `k` failed attempts within the budget the chain continues with
budget `m - k` at attempt number `n + k`. -/
theorem connect_rounds (outcome : Nat → ConnectOutcome) (socket_of : Nat → Socket)
    (host : String) (port : Nat) (delay : Int) (p : PeerState) (k : Nat) :
    ∀ (m : Int) (n : Nat), (k : Int) ≤ m →
      (∀ i, i < k → outcome (n + i) ≠ ConnectOutcome.connected) →
      Peer.connect_to_peer outcome socket_of host port delay m n p =
        ((Peer.connect_to_peer outcome socket_of host port delay (m - k) (n + k) p).1,
          retry_rounds host port delay m k ++
            (Peer.connect_to_peer outcome socket_of host port delay (m - k) (n + k) p).2) := by
  induction k with
  | zero =>
    intro m n _ _
    simp [retry_rounds]
  | succ k ih =>
    intro m n hk hfail
    have h0 : outcome n ≠ ConnectOutcome.connected := by
      have := hfail 0 (by omega)
      simpa using this
    have hm : m > 0 := by omega
    rw [connect_step_fail outcome socket_of host port delay m n p h0 hm]
    have hrec := ih (m - 1) (n + 1) (by omega) (by
      intro i hi
      have := hfail (i + 1) (by omega)
      rwa [show n + (i + 1) = n + 1 + i by omega] at this)
    have e1 : m - 1 - (k : Int) = m - ((k + 1 : Nat) : Int) := by push_cast; ring
    have e2 : n + 1 + k = n + (k + 1) := by omega
    rw [e1, e2] at hrec
    rw [hrec]
    simp [retry_rounds]

theorem retry_rounds_attempts (host : String) (port : Nat) (delay : Int) (k : Nat) :
    ∀ m : Int, ((retry_rounds host port delay m k).filter PeerStep.is_attempt).length = k ∧
      ((retry_rounds host port delay m k).filter PeerStep.is_retry).length = k := by
  induction k with
  | zero => intro m; simp [retry_rounds]
  | succ k ih =>
    intro m
    obtain ⟨h1, h2⟩ := ih (m - 1)
    simp [retry_rounds, PeerStep.is_attempt, PeerStep.is_retry, h1, h2]

theorem on_connected_no_attempt (p : PeerState) (socket : Socket) :
    (Peer.on_connected p socket).2.filter PeerStep.is_attempt = [] ∧
    (Peer.on_connected p socket).2.filter PeerStep.is_retry = [] := by
  simp only [Peer.on_connected, List.filter_append, List.filter_map]
  constructor
  · simp [PeerStep.is_attempt, Function.comp_def]
  · simp [PeerStep.is_retry, Function.comp_def]

theorem umap_find_emplace {κ ν : Type} [DecidableEq κ] (m : List (κ × ν)) (k : κ) (v : ν) :
    (umap_find (umap_emplace m k v) k).isSome = true := by
  unfold umap_emplace
  cases h : umap_find m k with
  | some w => simp [h]
  | none =>
    simp only
    induction m with
    | nil => simp [umap_find]
    | cons hd tl ih =>
      obtain ⟨k0, v0⟩ := hd
      by_cases hk : k0 = k
      · simp [umap_find, hk] at h
      · simp only [umap_find, hk, if_false] at h
        simp [umap_find, hk, ih h]

/-- C4 (reconnect/backoff).  Let the first `k` attempts of a chain started by
`connect_to_peer(host, port, max_retries, retry_delay)` fail, with
`0 ≤ k ≤ max_retries`.  If attempt `k` connects, the chain consists of `k`
rounds (an attempt with budget `max_retries - i` followed by a retry
scheduled with the configured delay and budget `max_retries - i - 1`), then
the attempt with budget `max_retries - k`, which registers its socket:
`k + 1` attempts and `k` retries in all.  If attempt `k` fails too and
`k = max_retries`, the chain ends after that attempt with no retry
scheduled and the peer unchanged: `max_retries + 1` attempts. -/
theorem reconnect_backoff (outcome : Nat → ConnectOutcome) (socket_of : Nat → Socket)
    (host : String) (port : Nat) (retry_delay_ms max_retries : Int) (k : Nat)
    (p : PeerState) (hk : (k : Int) ≤ max_retries)
    (hfail : ∀ i, i < k → outcome i ≠ ConnectOutcome.connected) :
    ∀ r, r = Peer.connect_to_peer outcome socket_of host port retry_delay_ms max_retries 0 p →
      (outcome k = ConnectOutcome.connected →
        r.2 = retry_rounds host port retry_delay_ms max_retries k ++
          PeerStep.attempt host port (max_retries - k) ::
            (Peer.on_connected p (socket_of k)).2 ∧
        (r.2.filter PeerStep.is_attempt).length = k + 1 ∧
        (r.2.filter PeerStep.is_retry).length = k ∧
        PeerStep.registered (socket_of k) ∈ r.2 ∧
        (umap_find r.1.connections_ (socket_of k)).isSome = true) ∧
      (outcome k ≠ ConnectOutcome.connected → (k : Int) = max_retries →
        r.1 = p ∧
        r.2 = retry_rounds host port retry_delay_ms max_retries k ++
          [PeerStep.attempt host port 0, PeerStep.no_more_retries host port] ∧
        ((r.2.filter PeerStep.is_attempt).length : Int) = max_retries + 1 ∧
        ((r.2.filter PeerStep.is_retry).length : Int) = max_retries) := by
  intro r hr
  have hchain := connect_rounds outcome socket_of host port retry_delay_ms p k max_retries 0 hk
    (by intro i hi; simpa using hfail i hi)
  rw [Nat.zero_add] at hchain
  obtain ⟨hra, hrr⟩ := retry_rounds_attempts host port retry_delay_ms k max_retries
  obtain ⟨hca, hcr⟩ := on_connected_no_attempt p (socket_of k)
  constructor
  · intro hok
    rw [connect_step_ok outcome socket_of host port retry_delay_ms _ k p hok] at hchain
    rw [hr, hchain]
    refine ⟨rfl, ?_, ?_, ?_, ?_⟩
    · simp [List.filter_append, List.filter_cons, PeerStep.is_attempt, hra, hca]
    · simp [List.filter_append, List.filter_cons, PeerStep.is_retry, hrr, hcr]
    · simp [Peer.on_connected]
    · simp only [Peer.on_connected]
      exact umap_find_emplace _ _ _
  · intro hno hkm
    have hz : ¬ (max_retries - (k : Int) > 0) := by omega
    rw [connect_step_stop outcome socket_of host port retry_delay_ms _ k p hno hz] at hchain
    rw [hr, hchain]
    have h0 : max_retries - (k : Int) = 0 := by omega
    refine ⟨rfl, by rw [h0], ?_, ?_⟩
    · simp [List.filter_append, List.filter_cons, PeerStep.is_attempt, hra]
      omega
    · simp [List.filter_append, List.filter_cons, PeerStep.is_retry, hrr]
      omega

/-- Witness of C4: budget 3, the first two attempts are refused, the third
connects; the peer has no handlers and no connections. -/
theorem reconnect_backoff_witness :
    ((Peer.connect_to_peer
        (fun i => if i < 2 then ConnectOutcome.connect_failed else ConnectOutcome.connected)
        (fun i => 100 + i) "hostA" 9001 5000 3 0 ⟨[], [], []⟩).2.filter
          PeerStep.is_attempt).length = 2 + 1 ∧
    PeerStep.registered 102 ∈ (Peer.connect_to_peer
        (fun i => if i < 2 then ConnectOutcome.connect_failed else ConnectOutcome.connected)
        (fun i => 100 + i) "hostA" 9001 5000 3 0 ⟨[], [], []⟩).2 :=
  have h := (reconnect_backoff
    (fun i => if i < 2 then ConnectOutcome.connect_failed else ConnectOutcome.connected)
    (fun i => 100 + i) "hostA" 9001 5000 3 2 ⟨[], [], []⟩ (by decide)
    (by intro i hi; simp [hi]) _ rfl).1 (by simp)
  ⟨h.2.1, h.2.2.2.1⟩

/-! ## Shutdown of the consumer workers -/

theorem drain_loop_spec {σ α : Type} (process : σ → α → σ) (q : List α) :
    ∀ st : σ, drain_loop process st q = (q.foldl process st, []) := by
  induction q with
  | nil => intro st; rfl
  | cons x q ih => intro st; simp [drain_loop, ih]

theorem running_then_drain {σ α : Type} (process : σ → α → σ) (spins : Nat) :
    ∀ (st : σ) (q : List α),
      drain_loop process (running_loop process spins st q).1
        (running_loop process spins st q).2 = (q.foldl process st, []) := by
  induction spins with
  | zero => intro st q; simp [running_loop, drain_loop_spec]
  | succ n ih =>
    intro st q
    cases q with
    | nil => simpa [running_loop] using ih st []
    | cons x q => simpa [running_loop] using ih (process st x) q

/-- C6 (shutdown drains both queues): the code at the failing input.  The
trade worker, whatever the number of turns before it reads the flag as
cleared, returns with an empty queue after `process_trade` has run on every
queued trade in order.  The position worker that reads the flag as cleared
returns at once: with one update queued it stops with that update still in
its queue and the table untouched. -/
theorem shutdown_positions_not_drained :
    (∀ (own : String) (ser : SymbolPos → Option Message) (spins : Nat)
        (st : PositionTable × List (Option Message)) (q : List (Trade × Int)),
      Engine.consume_trades own ser spins st q = (q.foldl (Engine.trade_step own ser) st, [])) ∧
    (∀ (t : PositionTable) (q : List SymbolPos), Engine.consume_positions 0 t q = (t, q)) ∧
    Engine.consume_positions 0 [] [⟨"beta", "AAPL", 5, 100⟩]
      = ([], [⟨"beta", "AAPL", 5, 100⟩]) := by
  refine ⟨?_, ?_, rfl⟩
  · intro own ser spins st q
    exact running_then_drain _ spins st q
  · intro t q
    rfl

/-! ## Publication of accepted connections -/

/-- C7 (connection-accepted notification on both paths): the code at the
failing input.  With the handlers of the `Engine` constructor subscribed,
the accept path registers socket 7 and invokes the handler of
`connection_accepted` once with that socket; the outbound path registers
socket 7 as well but publishes `connection_accepted()` without arguments,
which matches no handler of signature `(std::shared_ptr<tcp::socket>)`:
no handler is invoked and no snapshot push is started. -/
theorem connection_accepted_outbound_not_delivered :
    (Peer.on_accepted (Engine.subscribe_handlers ⟨[], [], []⟩) 7).2 =
      [PeerStep.registered 7,
       PeerStep.invoked 0 [⟨Target.push_current_positions_thread, [Value.socket 7]⟩],
       PeerStep.start_read 7, PeerStep.start_accept] ∧
    (Peer.on_connected (Engine.subscribe_handlers ⟨[], [], []⟩) 7).2 =
      [PeerStep.registered 7, PeerStep.start_read 7] ∧
    (Peer.connect_to_peer (fun _ => ConnectOutcome.connected) (fun _ => 7) "hostA" 9001 5000 3 0
        (Engine.subscribe_handlers ⟨[], [], []⟩)).2 =
      [PeerStep.attempt "hostA" 9001 3, PeerStep.registered 7, PeerStep.start_read 7] ∧
    (Peer.connect_to_peer (fun _ => ConnectOutcome.connected) (fun _ => 7) "hostA" 9001 5000 3 0
        (Engine.subscribe_handlers ⟨[], [], []⟩)).1.connections_ = [(7, 7)] := by
  refine ⟨by decide, by decide, ?_, ?_⟩
  · rw [connect_step_ok _ _ _ _ _ _ _ _ rfl]
    decide
  · rw [connect_step_ok _ _ _ _ _ _ _ _ rfl]
    decide

/-! ## One-hop propagation -/

theorem split_chars_token (d : Char) (a : List Char) (ha : ∀ c ∈ a, c ≠ d) :
    ∀ (rest token : List Char),
      split_chars d (a ++ rest) token = split_chars d rest (token ++ a) := by
  induction a with
  | nil => intro rest token; simp
  | cons c cs ih =>
    intro rest token
    have hc : c ≠ d := ha c (by simp)
    have := ih (fun x hx => ha x (by simp [hx])) rest (token ++ [c])
    rw [List.cons_append, split_chars, if_neg hc, this]
    simp

theorem split_two_words (sym num : String) (hs : sym.data ≠ []) (hn : num.data ≠ [])
    (hs1 : ∀ c ∈ sym.data, c ≠ Char.ofNat 32) (hn1 : ∀ c ∈ num.data, c ≠ Char.ofNat 32) :
    split (sym ++ " " ++ num) (Char.ofNat 32) = [sym, num] := by
  have hdata : (sym ++ " " ++ num).data = sym.data ++ (Char.ofNat 32 :: num.data) := by
    simp [String.data_append]
  unfold split
  rw [hdata, split_chars_token _ _ hs1]
  simp only [List.nil_append, split_chars, if_true, hs, if_false]
  have := split_chars_token (Char.ofNat 32) num.data hn1 [] []
  rw [List.append_nil] at this
  rw [this]
  simp [split_chars, hn]

/-- C9 (one-hop propagation scenario), amended.  For a command line made of
a symbol, one space and a numeral that `std::stod` reads as `position`,
symbol and numeral being non-empty and free of spaces: `parse_trade` yields
`Trade(symbol, position)`; `process_trade` on the empty table of node A
(strategy `strategyA`, clock reading `t`) stores `position` with timestamp
`t` under `strategyA/symbol`; what A hands to `Peer::broadcast` is the
serialisation of `PositionUpdate(strategyA, symbol, position, t)` (nothing
when serialisation fails); and `process_positions` of that update on the
empty table of node B stores `position` with timestamp `t` under
`strategyA/symbol`. -/
theorem one_hop_propagation (stod : String → Option ℚ) (ser : SymbolPos → Option Message)
    (strategyA sym num : String) (position : ℚ) (t : Int)
    (hs : sym.data ≠ []) (hn : num.data ≠ [])
    (hs1 : ∀ c ∈ sym.data, c ≠ Char.ofNat 32) (hn1 : ∀ c ∈ num.data, c ≠ Char.ofNat 32)
    (hstod : stod num = some position) :
    parse_trade stod (sym ++ " " ++ num) = Except.ok ⟨sym, position⟩ ∧
    entry (Engine.process_trade strategyA ser t [] ⟨sym, position⟩).1 strategyA sym
      = some (position, t) ∧
    (Engine.process_trade strategyA ser t [] ⟨sym, position⟩).2
      = ser ⟨strategyA, sym, position, t⟩ ∧
    entry (Engine.process_positions [] ⟨strategyA, sym, position, t⟩) strategyA sym
      = some (position, t) := by
  have hnone : entry ([] : PositionTable) strategyA sym = none := rfl
  refine ⟨?_, ?_, ?_, ?_⟩
  · simp [parse_trade, split_two_words sym num hs hn hs1 hn1, hstod]
  · rw [process_trade_table]
    simp only [entry_at_of_none _ _ _ hnone, zero_add, entry_assign_same]
  · rw [process_trade_message]
    simp only [Engine.derived_update, entry_at_of_none _ _ _ hnone, zero_add]
  · rw [process_positions_absent _ _ hnone, entry_assign_same]

/-- Witness of C9: the command `AAPL 100` on node `alpha`, with `std::stod`
reading the text `100` as the number 100. -/
theorem one_hop_propagation_witness :
    parse_trade (fun s => if s = "100" then some 100 else none) ("AAPL" ++ " " ++ "100")
      = Except.ok ⟨"AAPL", 100⟩ ∧
    entry (Engine.process_trade "alpha" (fun _ => some [1]) 42 [] ⟨"AAPL", 100⟩).1
      "alpha" "AAPL" = some (100, 42) ∧
    (Engine.process_trade "alpha" (fun _ => some [1]) 42 [] ⟨"AAPL", 100⟩).2
      = (fun _ => some [1]) (⟨"alpha", "AAPL", 100, 42⟩ : SymbolPos) ∧
    entry (Engine.process_positions [] ⟨"alpha", "AAPL", 100, 42⟩) "alpha" "AAPL"
      = some (100, 42) :=
  one_hop_propagation (fun s => if s = "100" then some 100 else none) (fun _ => some [1])
    "alpha" "AAPL" "100" 100 42 (by decide) (by decide) (by decide) (by decide) (by simp)

/-- Counterexample to C9 as stated: the command `AAPL 100` on node `alpha`
when `SerializeToString` fails.  The trade is parsed and the table of A is
updated, but `process_trade` returns before `Peer::broadcast`: A broadcasts
no update. -/
theorem one_hop_propagation_counterexample :
    parse_trade (fun s => if s = "100" then some 100 else none) "AAPL 100"
      = Except.ok ⟨"AAPL", 100⟩ ∧
    entry (Engine.process_trade "alpha" (fun _ => none) 42 [] ⟨"AAPL", 100⟩).1
      "alpha" "AAPL" = some (100, 42) ∧
    (Engine.process_trade "alpha" (fun _ => none) 42 [] ⟨"AAPL", 100⟩).2 = none := by
  refine ⟨rfl, ?_, ?_⟩
  · rw [process_trade_table, entry_assign_same]
    simp [entry_at_of_none _ _ _ (rfl : entry ([] : PositionTable) "alpha" "AAPL" = none)]
  · rw [process_trade_message]

/-! ## Position table invariant -/

theorem lww_invariant_assign (T : PositionTable) (O : List SymbolPos) (u0 : SymbolPos)
    (hinv : lww_invariant T O)
    (hle : ∀ v, entry T u0.strategy_name u0.symbol = some v → v.2 ≤ u0.timestamp) :
    lww_invariant
      (assign_entry T u0.strategy_name u0.symbol (u0.net_position, u0.timestamp))
      (O ++ [u0]) := by
  obtain ⟨hA, hB⟩ := hinv
  constructor
  · intro s y e he
    by_cases hkey : s = u0.strategy_name ∧ y = u0.symbol
    · obtain ⟨rfl, rfl⟩ := hkey
      rw [entry_assign_same] at he
      cases he
      refine ⟨⟨u0, by simp, rfl, rfl, rfl, rfl⟩, ?_⟩
      intro u hu hus huy
      rcases List.mem_append.1 hu with hu | hu
      · cases hv : entry T u0.strategy_name u0.symbol with
        | none =>
          have := hB u hu
          rw [hus, huy, hv] at this
          exact absurd rfl this
        | some v =>
          have h1 := (hA _ _ v hv).2 u hu hus huy
          have h2 := hle v hv
          exact le_trans h1 h2
      · simp at hu
        rw [hu]
    · rw [entry_assign_other _ _ _ _ _ _ hkey] at he
      obtain ⟨⟨u, hu, h1, h2, h3, h4⟩, hmax⟩ := hA s y e he
      refine ⟨⟨u, by simp [hu], h1, h2, h3, h4⟩, ?_⟩
      intro w hw hws hwy
      rcases List.mem_append.1 hw with hw | hw
      · exact hmax w hw hws hwy
      · simp at hw
        subst hw
        exact absurd ⟨hws.symm, hwy.symm⟩ hkey
  · intro u hu
    rcases List.mem_append.1 hu with hu | hu
    · by_cases hkey : u.strategy_name = u0.strategy_name ∧ u.symbol = u0.symbol
      · rw [hkey.1, hkey.2, entry_assign_same]
        simp
      · rw [entry_assign_other _ _ _ _ _ _ hkey]
        exact hB u hu
    · simp at hu
      subst hu
      rw [entry_assign_same]
      simp

theorem lww_invariant_keep (T : PositionTable) (O : List SymbolPos) (u0 : SymbolPos)
    (v : Sizing) (hinv : lww_invariant T O)
    (hv : entry T u0.strategy_name u0.symbol = some v) (hle : u0.timestamp ≤ v.2) :
    lww_invariant T (O ++ [u0]) := by
  obtain ⟨hA, hB⟩ := hinv
  constructor
  · intro s y e he
    obtain ⟨⟨u, hu, h1, h2, h3, h4⟩, hmax⟩ := hA s y e he
    refine ⟨⟨u, by simp [hu], h1, h2, h3, h4⟩, ?_⟩
    intro w hw hws hwy
    rcases List.mem_append.1 hw with hw | hw
    · exact hmax w hw hws hwy
    · simp at hw
      subst hw
      rw [hws, hwy, he] at hv
      cases hv
      exact hle
  · intro u hu
    rcases List.mem_append.1 hu with hu | hu
    · exact hB u hu
    · simp at hu
      subst hu
      rw [hv]
      simp

/-- One mutation whose clock reading passes `clock_ok` keeps the invariant. -/
theorem lww_invariant_step (own : String) (ser : SymbolPos → Option Message)
    (T : PositionTable) (O : List SymbolPos) (m : Mutation)
    (hinv : lww_invariant T O) (hclock : Engine.clock_ok own T m = true) :
    lww_invariant (Engine.mutate own ser T m) (O ++ [Engine.observe own T m]) := by
  cases m with
  | received pos =>
    simp only [Engine.mutate, Engine.observe]
    cases hv : entry T pos.strategy_name pos.symbol with
    | none =>
      rw [process_positions_absent _ _ hv]
      exact lww_invariant_assign T O pos hinv (by intro v h; rw [hv] at h; cases h)
    | some v =>
      rw [process_positions_present _ _ _ hv]
      by_cases hgt : pos.timestamp > v.2
      · rw [if_pos hgt]
        refine lww_invariant_assign T O pos hinv ?_
        intro w h
        rw [hv] at h
        cases h
        omega
      · rw [if_neg hgt]
        exact lww_invariant_keep T O pos v hinv hv (by omega)
  | local_trade trade now =>
    simp only [Engine.mutate, Engine.observe, process_trade_table]
    have h := lww_invariant_assign T O (Engine.derived_update own now T trade) hinv (by
      intro v hv
      simp only [Engine.derived_update] at hv ⊢
      simp only [Engine.clock_ok, hv, decide_eq_true_eq] at hclock
      exact hclock)
    simpa [Engine.derived_update] using h

/-- One mutation whose clock reading passes `clock_ok` lowers no timestamp. -/
theorem mutate_timestamp_mono (own : String) (ser : SymbolPos → Option Message)
    (T : PositionTable) (m : Mutation) (hclock : Engine.clock_ok own T m = true)
    (s y : String) (e : Sizing) (he : entry T s y = some e) :
    ∃ e1, entry (Engine.mutate own ser T m) s y = some e1 ∧ e.2 ≤ e1.2 := by
  have key : ∀ (s0 y0 : String) (v0 : Sizing),
      (∀ v, entry T s0 y0 = some v → v.2 ≤ v0.2) →
      ∃ e1, entry (assign_entry T s0 y0 v0) s y = some e1 ∧ e.2 ≤ e1.2 := by
    intro s0 y0 v0 hle
    by_cases hkey : s = s0 ∧ y = y0
    · obtain ⟨rfl, rfl⟩ := hkey
      exact ⟨v0, entry_assign_same _ _ _ _, hle e he⟩
    · exact ⟨e, by rw [entry_assign_other _ _ _ _ _ _ hkey, he], le_refl _⟩
  cases m with
  | received pos =>
    simp only [Engine.mutate]
    cases hv : entry T pos.strategy_name pos.symbol with
    | none =>
      rw [process_positions_absent _ _ hv]
      exact key _ _ _ (by intro v h; rw [hv] at h; cases h)
    | some v =>
      rw [process_positions_present _ _ _ hv]
      by_cases hgt : pos.timestamp > v.2
      · rw [if_pos hgt]
        refine key _ _ _ ?_
        intro w h
        rw [hv] at h
        cases h
        exact le_of_lt hgt
      · rw [if_neg hgt]
        exact ⟨e, he, le_refl _⟩
  | local_trade trade now =>
    simp only [Engine.mutate, process_trade_table]
    refine key _ _ _ ?_
    intro v hv
    simp only [Engine.clock_ok, hv, decide_eq_true_eq] at hclock
    exact hclock

theorem run_mutations_snoc (own : String) (ser : SymbolPos → Option Message)
    (l : List Mutation) (m : Mutation) :
    Engine.run_mutations own ser (l ++ [m]) =
      Engine.mutation_step own ser (Engine.run_mutations own ser l) m := by
  simp [Engine.run_mutations, List.foldl_append]

theorem run_mutations_clock_left (own : String) (ser : SymbolPos → Option Message)
    (l r : List Mutation) (h : (Engine.run_mutations own ser (l ++ r)).2.2 = true) :
    (Engine.run_mutations own ser l).2.2 = true := by
  induction r using List.reverseRecOn with
  | nil => simpa using h
  | append_singleton r a ih =>
    rw [← List.append_assoc, run_mutations_snoc] at h
    simp only [Engine.mutation_step, Bool.and_eq_true] at h
    exact ih h.1

theorem run_mutations_invariant (own : String) (ser : SymbolPos → Option Message)
    (ms : List Mutation) (h : (Engine.run_mutations own ser ms).2.2 = true) :
    lww_invariant (Engine.run_mutations own ser ms).1 (Engine.run_mutations own ser ms).2.1 := by
  induction ms using List.reverseRecOn with
  | nil =>
    constructor
    · intro s y e he
      cases he
    · intro u hu
      cases hu
  | append_singleton l a ih =>
    rw [run_mutations_snoc] at h ⊢
    simp only [Engine.mutation_step, Bool.and_eq_true] at h
    exact lww_invariant_step own ser _ _ a (ih h.1) h.2

/-- C5 (position table invariant), amended.  For every sequence of mutations
from the empty table in which the clock reading of each `process_trade` is
not behind the timestamp then stored for its pair: every entry `(s, y)` of
the final table has the net position and timestamp of an update observed
for `(s, y)`, and no update observed for `(s, y)` has a greater timestamp;
and every mutation of the sequence keeps each entry present with a
timestamp not lower than before. -/
theorem position_table_invariant (own : String) (ser : SymbolPos → Option Message)
    (ms : List Mutation) (hclock : (Engine.run_mutations own ser ms).2.2 = true) :
    (∀ (s y : String) (e : Sizing), entry (Engine.run_mutations own ser ms).1 s y = some e →
      (∃ u ∈ (Engine.run_mutations own ser ms).2.1, u.strategy_name = s ∧ u.symbol = y ∧
        u.net_position = e.1 ∧ u.timestamp = e.2) ∧
      (∀ u ∈ (Engine.run_mutations own ser ms).2.1,
        u.strategy_name = s → u.symbol = y → u.timestamp ≤ e.2)) ∧
    (∀ (pre post : List Mutation) (m : Mutation), ms = pre ++ m :: post →
      ∀ (s y : String) (e : Sizing), entry (Engine.run_mutations own ser pre).1 s y = some e →
        ∃ e1, entry (Engine.run_mutations own ser (pre ++ [m])).1 s y = some e1 ∧
          e.2 ≤ e1.2) := by
  refine ⟨(run_mutations_invariant own ser ms hclock).1, ?_⟩
  intro pre post m hms s y e he
  have h1 : (Engine.run_mutations own ser ((pre ++ [m]) ++ post)).2.2 = true := by
    rw [List.append_assoc]
    simpa [hms] using hclock
  have h2 := run_mutations_clock_left own ser _ _ h1
  rw [run_mutations_snoc] at h2 ⊢
  simp only [Engine.mutation_step, Bool.and_eq_true] at h2
  exact mutate_timestamp_mono own ser _ m h2.2 s y e he

/-- Witness of C5: node `alpha` receives an update of `beta/AAPL`, trades
`AAPL` at clock 50 and receives an older update of `beta/AAPL`. -/
theorem position_table_invariant_witness :
    (Engine.run_mutations "alpha" (fun _ => some [])
      [Mutation.received ⟨"beta", "AAPL", 5, 100⟩, Mutation.local_trade ⟨"AAPL", 7⟩ 50,
        Mutation.received ⟨"beta", "AAPL", 9, 80⟩]).2.2 = true ∧
    ∀ (s y : String) (e : Sizing),
      entry (Engine.run_mutations "alpha" (fun _ => some [])
        [Mutation.received ⟨"beta", "AAPL", 5, 100⟩, Mutation.local_trade ⟨"AAPL", 7⟩ 50,
          Mutation.received ⟨"beta", "AAPL", 9, 80⟩]).1 s y = some e →
      ∀ u ∈ (Engine.run_mutations "alpha" (fun _ => some [])
        [Mutation.received ⟨"beta", "AAPL", 5, 100⟩, Mutation.local_trade ⟨"AAPL", 7⟩ 50,
          Mutation.received ⟨"beta", "AAPL", 9, 80⟩]).2.1,
        u.strategy_name = s → u.symbol = y → u.timestamp ≤ e.2 :=
  ⟨by decide, fun s y e he =>
    ((position_table_invariant "alpha" (fun _ => some [])
      [Mutation.received ⟨"beta", "AAPL", 5, 100⟩, Mutation.local_trade ⟨"AAPL", 7⟩ 50,
        Mutation.received ⟨"beta", "AAPL", 9, 80⟩] (by decide)).1 s y e he).2⟩

/-- Counterexample to C5 as stated: node `alpha` trades `AAPL` at clock
reading 50 and again at clock reading 20 (the system clock was set back).
`process_trade` stamps the entry unconditionally: the second mutation
lowers the stored timestamp from 50 to 20, below the timestamp 50 of an
update observed for the pair. -/
theorem position_table_invariant_counterexample :
    entry (Engine.run_mutations "alpha" (fun _ => some [])
      [Mutation.local_trade ⟨"AAPL", 100⟩ 50]).1 "alpha" "AAPL" = some (100, 50) ∧
    entry (Engine.run_mutations "alpha" (fun _ => some [])
      [Mutation.local_trade ⟨"AAPL", 100⟩ 50, Mutation.local_trade ⟨"AAPL", 10⟩ 20]).1
        "alpha" "AAPL" = some (110, 20) ∧
    (Engine.run_mutations "alpha" (fun _ => some [])
      [Mutation.local_trade ⟨"AAPL", 100⟩ 50, Mutation.local_trade ⟨"AAPL", 10⟩ 20]).2.1
        = [⟨"alpha", "AAPL", 100, 50⟩, ⟨"alpha", "AAPL", 110, 20⟩] := by
  refine ⟨?_, ?_, ?_⟩ <;>
    simp [Engine.run_mutations, Engine.mutation_step, Engine.mutate, Engine.observe,
      process_trade_table, Engine.derived_update, entry_at, umap_at, umap_find,
      assign_entry, umap_set, entry] <;>
    norm_num

/-! ## Single-hop gossip -/

theorem umap_set_mem {κ ν : Type} [DecidableEq κ] (m : List (κ × ν)) (k : κ) (v : ν) :
    ∀ x ∈ umap_set m k v, x ∈ m ∨ x = (k, v) := by
  induction m with
  | nil => intro x hx; simp [umap_set] at hx; exact Or.inr hx
  | cons hd tl ih =>
    obtain ⟨k0, v0⟩ := hd
    intro x hx
    by_cases hk : k0 = k
    · simp only [umap_set, hk, if_true, List.mem_cons] at hx
      rcases hx with hx | hx
      · exact Or.inr hx
      · exact Or.inl (by simp [hx])
    · simp only [umap_set, hk, if_false, List.mem_cons] at hx
      rcases hx with hx | hx
      · exact Or.inl (by simp [hx])
      · rcases ih x hx with h | h
        · exact Or.inl (by simp [h])
        · exact Or.inr h

theorem umap_find_emplace_other {κ ν : Type} [DecidableEq κ] (m : List (κ × ν))
    (k k1 : κ) (v : ν) (hne : k1 ≠ k) :
    umap_find (umap_emplace m k v) k1 = umap_find m k1 := by
  unfold umap_emplace
  cases umap_find m k with
  | some w => rfl
  | none =>
    simp only
    induction m with
    | nil =>
      have : ¬ k = k1 := fun h => hne h.symm
      simp [umap_find, this]
    | cons hd tl ih =>
      obtain ⟨k0, v0⟩ := hd
      by_cases hk : k0 = k1
      · simp [umap_find, hk]
      · simp [umap_find, hk, ih]

theorem umap_at_emplace_nil {ν : Type} (m : List (String × List ν)) (k k1 : String) :
    umap_at (umap_emplace m k []) k1 [] = umap_at m k1 [] := by
  by_cases hk : k1 = k
  · subst hk
    unfold umap_at umap_emplace
    cases h : umap_find m k1 with
    | some w => simp [h]
    | none =>
      simp only
      have : ∀ l : List (String × List ν), umap_find l k1 = none →
          umap_find (l ++ [(k1, [])]) k1 = some [] := by
        intro l
        induction l with
        | nil => intro _; simp [umap_find]
        | cons hd tl ih =>
          obtain ⟨k0, v0⟩ := hd
          intro hl
          by_cases hk0 : k0 = k1
          · simp [umap_find, hk0] at hl
          · simp only [umap_find, hk0, if_false] at hl
            simp [umap_find, hk0, ih hl]
      simp [this m h]
  · unfold umap_at
    rw [umap_find_emplace_other _ _ _ _ hk]

theorem umap_at_assign_other (T : PositionTable) (s y own : String) (v : Sizing)
    (hne : own ≠ s) : umap_at (assign_entry T s y v) own [] = umap_at T own [] := by
  unfold umap_at assign_entry
  rw [umap_find_set_other _ _ _ _ hne]

theorem umap_at_assign_same (T : PositionTable) (s y : String) (v : Sizing) :
    umap_at (assign_entry T s y v) s [] = umap_set (umap_at T s []) y v := by
  unfold assign_entry
  rw [umap_at, umap_find_set_same]
  rfl

theorem process_positions_other_strategy (T : PositionTable) (pos : SymbolPos) (own : String)
    (hne : pos.strategy_name ≠ own) :
    umap_at (Engine.process_positions T pos) own [] = umap_at T own [] := by
  unfold Engine.process_positions
  have h := umap_at_assign_other T pos.strategy_name pos.symbol own
    (pos.net_position, pos.timestamp) (fun h => hne h.symm)
  split
  · exact h
  · simp only
    split
    · exact h
    · rfl

/-- The invariant behind single-hop gossip: the symbols stored under the own
strategy and the writes submitted all stem from own derived updates. -/
theorem node_step_invariant (own : String) (ser : SymbolPos → Option Message)
    (st : NodeState) (ev : NodeEvent) (hev : ev.receives_strategy own = false)
    (h1 : ∀ x ∈ umap_at st.positions_ own [],
      (⟨own, x.1, x.2.1, x.2.2⟩ : SymbolPos) ∈ st.derived)
    (h2 : ∀ w ∈ st.writes, ∃ u ∈ st.derived, ∃ msg, ser u = some msg ∧
      w = Peer.send_message w.socket msg) :
    (∀ x ∈ umap_at (Engine.node_step own ser st ev).positions_ own [],
      (⟨own, x.1, x.2.1, x.2.2⟩ : SymbolPos) ∈ (Engine.node_step own ser st ev).derived) ∧
    (∀ w ∈ (Engine.node_step own ser st ev).writes,
      ∃ u ∈ (Engine.node_step own ser st ev).derived, ∃ msg, ser u = some msg ∧
        w = Peer.send_message w.socket msg) := by
  cases ev with
  | position_received pos =>
    have hne : pos.strategy_name ≠ own := by
      simpa [NodeEvent.receives_strategy] using hev
    simp only [Engine.node_step]
    rw [process_positions_other_strategy _ _ _ hne]
    exact ⟨h1, h2⟩
  | local_trade trade now =>
    simp only [Engine.node_step, process_trade_table, process_trade_message]
    constructor
    · intro x hx
      rw [umap_at_assign_same] at hx
      rcases umap_set_mem _ _ _ x hx with hx | hx
      · exact List.mem_append.2 (Or.inl (h1 x hx))
      · subst hx
        apply List.mem_append.2
        right
        simp [Engine.derived_update]
    · intro w hw
      rcases List.mem_append.1 hw with hw | hw
      · obtain ⟨u, hu, msg, hmsg, hweq⟩ := h2 w hw
        exact ⟨u, List.mem_append.2 (Or.inl hu), msg, hmsg, hweq⟩
      · cases hser : ser (Engine.derived_update own now st.positions_ trade) with
        | none =>
          rw [hser] at hw
          cases hw
        | some msg =>
          rw [hser] at hw
          simp only [Peer.broadcast, List.mem_map] at hw
          obtain ⟨c, _, rfl⟩ := hw
          exact ⟨_, List.mem_append.2 (Or.inr (by simp)), msg, hser, rfl⟩
  | connection_accepted socket =>
    simp only [Engine.node_step, Engine.push_current_positions]
    constructor
    · intro x hx
      rw [umap_at_emplace_nil] at hx
      exact h1 x hx
    · intro w hw
      rcases List.mem_append.1 hw with hw | hw
      · exact h2 w hw
      · simp only [List.mem_filterMap, Engine.snapshot_updates, List.mem_map] at hw
        obtain ⟨pos, ⟨x, hx, rfl⟩, hw⟩ := hw
        cases hser : ser ⟨own, x.1, x.2.1, x.2.2⟩ with
        | none =>
          rw [hser] at hw
          cases hw
        | some msg =>
          rw [hser] at hw
          simp only [Option.map_some', Option.some.injEq] at hw
          subst hw
          exact ⟨_, h1 x hx, msg, hser, rfl⟩

theorem run_node_invariant (own : String) (ser : SymbolPos → Option Message)
    (events : List NodeEvent) (hev : ∀ ev ∈ events, ev.receives_strategy own = false) :
    (∀ x ∈ umap_at (Engine.run_node own ser events).positions_ own [],
      (⟨own, x.1, x.2.1, x.2.2⟩ : SymbolPos) ∈ (Engine.run_node own ser events).derived) ∧
    (∀ w ∈ (Engine.run_node own ser events).writes,
      ∃ u ∈ (Engine.run_node own ser events).derived, ∃ msg, ser u = some msg ∧
        w = Peer.send_message w.socket msg) := by
  induction events using List.reverseRecOn with
  | nil =>
    constructor
    · intro x hx
      simp [Engine.run_node, umap_at, umap_find] at hx
    · intro w hw
      simp [Engine.run_node] at hw
  | append_singleton l a ih =>
    obtain ⟨i1, i2⟩ := ih (fun ev h => hev ev (by simp [h]))
    have hstep : Engine.run_node own ser (l ++ [a]) =
        Engine.node_step own ser (Engine.run_node own ser l) a := by
      simp [Engine.run_node, List.foldl_append]
    rw [hstep]
    exact node_step_invariant own ser _ a (hev a (by simp)) i1 i2

/-- C10 (single-hop gossip), amended.  For every sequence of received
updates whose strategy name differs from the own one, local trades and
accepted connections, from a node started empty: every write the node
submits, by `Peer::broadcast` from `process_trade` or by
`push_current_positions`, is the framing of the serialisation of an update
derived by one of the own `process_trade` steps of the sequence. -/
theorem single_hop_gossip (own : String) (ser : SymbolPos → Option Message)
    (events : List NodeEvent) (hev : ∀ ev ∈ events, ev.receives_strategy own = false) :
    ∀ w ∈ (Engine.run_node own ser events).writes,
      ∃ u ∈ (Engine.run_node own ser events).derived, ∃ msg, ser u = some msg ∧
        w = Peer.send_message w.socket msg :=
  (run_node_invariant own ser events hev).2

/-- Witness of C10: node `alpha` receives an update of `beta`, accepts a
connection, trades and accepts another connection. -/
theorem single_hop_gossip_witness :
    (∀ ev ∈ [NodeEvent.position_received ⟨"beta", "AAPL", 5, 100⟩,
         NodeEvent.connection_accepted 1, NodeEvent.local_trade ⟨"AAPL", 7⟩ 50,
         NodeEvent.connection_accepted 2], ev.receives_strategy "alpha" = false) ∧
    ∀ w ∈ (Engine.run_node "alpha" (fun p => some [low_byte p.timestamp.toNat])
        [NodeEvent.position_received ⟨"beta", "AAPL", 5, 100⟩,
         NodeEvent.connection_accepted 1, NodeEvent.local_trade ⟨"AAPL", 7⟩ 50,
         NodeEvent.connection_accepted 2]).writes,
      ∃ u ∈ (Engine.run_node "alpha" (fun p => some [low_byte p.timestamp.toNat])
        [NodeEvent.position_received ⟨"beta", "AAPL", 5, 100⟩,
         NodeEvent.connection_accepted 1, NodeEvent.local_trade ⟨"AAPL", 7⟩ 50,
         NodeEvent.connection_accepted 2]).derived,
      ∃ msg, (fun p : SymbolPos => some [low_byte p.timestamp.toNat]) u = some msg ∧
        w = Peer.send_message w.socket msg :=
  ⟨by decide,
   single_hop_gossip "alpha" (fun p => some [low_byte p.timestamp.toNat]) _ (by decide)⟩

/-- Counterexample to C10 as stated: node `alpha` receives the update
`(alpha, AAPL, 5, 100)`, which carries its own strategy name, and then
accepts a connection on socket 1.  `process_positions` stores the update
under `alpha`, and `push_current_positions` sends it to the new peer, though
no `process_trade` step has derived any update. -/
theorem single_hop_gossip_counterexample :
    (Engine.run_node "alpha" (fun p => some [low_byte p.timestamp.toNat])
      [NodeEvent.position_received ⟨"alpha", "AAPL", 5, 100⟩,
       NodeEvent.connection_accepted 1]).writes
      = [Peer.send_message 1 [low_byte 100]] ∧
    (Engine.run_node "alpha" (fun p => some [low_byte p.timestamp.toNat])
      [NodeEvent.position_received ⟨"alpha", "AAPL", 5, 100⟩,
       NodeEvent.connection_accepted 1]).derived = [] ∧
    Engine.snapshot_updates "alpha" (Engine.process_positions [] ⟨"alpha", "AAPL", 5, 100⟩)
      = [⟨"alpha", "AAPL", 5, 100⟩] := by
  refine ⟨by decide, by decide, by decide⟩

/-! ## Framing round trip -/

theorem entry_eq_find (t : PositionTable) (s y : String) :
    entry t s y = umap_find (umap_at t s []) y := by
  unfold entry umap_at
  cases umap_find t s <;> simp [umap_find]

theorem umap_find_mem {κ ν : Type} [DecidableEq κ] (m : List (κ × ν)) (k : κ) (v : ν)
    (h : umap_find m k = some v) : (k, v) ∈ m := by
  induction m with
  | nil => simp [umap_find] at h
  | cons hd tl ih =>
    obtain ⟨k0, v0⟩ := hd
    by_cases hk : k0 = k
    · simp only [umap_find, hk, if_true, Option.some.injEq] at h
      simp [hk, h]
    · simp only [umap_find, hk, if_false] at h
      simp [ih h]

theorem umap_find_of_mem {κ ν : Type} [DecidableEq κ] (m : List (κ × ν)) (k : κ) (v : ν)
    (hkeys : (m.map Prod.fst).Nodup) (h : (k, v) ∈ m) : umap_find m k = some v := by
  induction m with
  | nil => simp at h
  | cons hd tl ih =>
    obtain ⟨k0, v0⟩ := hd
    simp only [List.map_cons, List.nodup_cons, List.mem_map, not_exists, not_and] at hkeys
    rcases List.mem_cons.1 h with h | h
    · cases h
      simp [umap_find]
    · have hk : k0 ≠ k := by
        intro hk
        exact hkeys.1 (k, v) h hk.symm
      simp only [umap_find, hk, if_false]
      exact ih hkeys.2 h

/-- Assignment through `operator[]` keeps the keys of the container distinct. -/
theorem umap_set_keys_nodup {κ ν : Type} [DecidableEq κ] (m : List (κ × ν)) (k : κ) (v : ν)
    (hkeys : (m.map Prod.fst).Nodup) : ((umap_set m k v).map Prod.fst).Nodup := by
  induction m with
  | nil => simp [umap_set]
  | cons hd tl ih =>
    obtain ⟨k0, v0⟩ := hd
    simp only [List.map_cons, List.nodup_cons] at hkeys
    by_cases hk : k0 = k
    · simp only [umap_set, hk, if_true, List.map_cons, List.nodup_cons]
      rw [← hk]
      exact hkeys
    · simp only [umap_set, hk, if_false, List.map_cons, List.nodup_cons]
      refine ⟨?_, ih hkeys.2⟩
      intro hmem
      obtain ⟨x, hx, hx0⟩ := List.mem_map.1 hmem
      rcases umap_set_mem tl k v x hx with h | h
      · exact hkeys.1 (List.mem_map.2 ⟨x, h, hx0⟩)
      · rw [h] at hx0
        exact hk hx0.symm

theorem snapshot_updates_symbols (own : String) (t : PositionTable) :
    (Engine.snapshot_updates own t).map SymbolPos.symbol
      = (umap_at t own []).map Prod.fst := by
  simp [Engine.snapshot_updates, List.map_map, Function.comp_def]

theorem snapshot_updates_nil (own : String) (t : PositionTable)
    (h : ∀ y, entry t own y = none) : Engine.snapshot_updates own t = [] := by
  have hin : umap_at t own [] = [] := by
    cases hl : umap_at t own [] with
    | nil => rfl
    | cons hd tl =>
      have := h hd.1
      rw [entry_eq_find, hl] at this
      simp [umap_find] at this
  simp [Engine.snapshot_updates, hin]

/-- C12 (snapshot on join), amended.  For every position table (the symbols
under the own strategy being distinct keys, as in `std::unordered_map`),
`push_current_positions` builds one record per symbol that has an entry
under the own strategy, carrying the own strategy name, that symbol and the
net position and timestamp stored for it.  Every write it submits goes to
the socket of the joined peer and is the framing of the serialisation of one
of these records; a record whose serialisation fails is skipped, and when
every record serialises there is exactly one write per record, in order.
No record stems from another strategy, nothing is sent when the own
strategy has no entries, and every stored pair is left as it was. -/
theorem snapshot_on_join (own : String) (ser : SymbolPos → Option Message)
    (positions_ : PositionTable) (socket : Socket)
    (hkeys : ((umap_at positions_ own []).map Prod.fst).Nodup) :
    (Engine.push_current_positions own ser positions_ socket).2 =
      (Engine.snapshot_updates own positions_).filterMap
        (fun u => (ser u).map (Peer.send_message socket)) ∧
    (∀ u ∈ Engine.snapshot_updates own positions_,
      u.strategy_name = own ∧
      entry positions_ own u.symbol = some (u.net_position, u.timestamp)) ∧
    (∀ (y : String) (e : Sizing), entry positions_ own y = some e →
      ((Engine.snapshot_updates own positions_).map SymbolPos.symbol).count y = 1 ∧
      (⟨own, y, e.1, e.2⟩ : SymbolPos) ∈ Engine.snapshot_updates own positions_) ∧
    (∀ w ∈ (Engine.push_current_positions own ser positions_ socket).2,
      w.socket = socket ∧
      ∃ u ∈ Engine.snapshot_updates own positions_, ∃ msg, ser u = some msg ∧
        w = Peer.send_message socket msg) ∧
    ((∀ u ∈ Engine.snapshot_updates own positions_, (ser u).isSome = true) →
      (Engine.push_current_positions own ser positions_ socket).2.map some =
        (Engine.snapshot_updates own positions_).map
          (fun u => (ser u).map (Peer.send_message socket))) ∧
    ((∀ y, entry positions_ own y = none) →
      (Engine.push_current_positions own ser positions_ socket).2 = []) ∧
    (∀ s y, entry (Engine.push_current_positions own ser positions_ socket).1 s y
      = entry positions_ s y) := by
  refine ⟨rfl, ?_, ?_, ?_, ?_, ?_, ?_⟩
  · intro u hu
    simp only [Engine.snapshot_updates, List.mem_map] at hu
    obtain ⟨x, hx, rfl⟩ := hu
    refine ⟨rfl, ?_⟩
    rw [entry_eq_find]
    exact umap_find_of_mem _ _ _ hkeys hx
  · intro y e he
    rw [entry_eq_find] at he
    have hmem := umap_find_mem _ _ _ he
    constructor
    · rw [snapshot_updates_symbols]
      exact List.count_eq_one_of_mem hkeys (List.mem_map.2 ⟨(y, e), hmem, rfl⟩)
    · simp only [Engine.snapshot_updates, List.mem_map]
      exact ⟨(y, e), hmem, rfl⟩
  · intro w hw
    simp only [Engine.push_current_positions, List.mem_filterMap] at hw
    obtain ⟨u, hu, hw⟩ := hw
    cases hser : ser u with
    | none =>
      rw [hser] at hw
      cases hw
    | some msg =>
      rw [hser] at hw
      simp only [Option.map_some', Option.some.injEq] at hw
      subst hw
      exact ⟨rfl, u, hu, msg, hser, rfl⟩
  · intro hall
    simp only [Engine.push_current_positions]
    generalize Engine.snapshot_updates own positions_ = us at hall
    induction us with
    | nil => rfl
    | cons u us ih =>
      have hu := hall u (by simp)
      obtain ⟨msg, hmsg⟩ := Option.isSome_iff_exists.1 hu
      have ih1 := ih (fun x hx => hall x (by simp [hx]))
      simp only [List.filterMap_cons, hmsg, Option.map_some', List.map_cons, ih1]
  · intro hnone
    simp [Engine.push_current_positions, snapshot_updates_nil own positions_ hnone]
  · intro s y
    simp only [Engine.push_current_positions]
    rw [entry_eq_find, entry_eq_find, umap_at_emplace_nil]

/-- Witness of C12: node `alpha` holds two symbols of its own and one of
`beta`; the serialiser encodes a record as the low byte of its timestamp. -/
theorem snapshot_on_join_witness :
    ((umap_at ([("beta", [("AAPL", (1, 7))]), ("alpha", [("AAPL", (5, 100)), ("MSFT", (-2, 90))])]
        : PositionTable) "alpha" []).map Prod.fst).Nodup ∧
    (Engine.push_current_positions "alpha" (fun p => some [low_byte p.timestamp.toNat])
      [("beta", [("AAPL", (1, 7))]), ("alpha", [("AAPL", (5, 100)), ("MSFT", (-2, 90))])] 3).2
      = [Peer.send_message 3 [low_byte 100], Peer.send_message 3 [low_byte 90]] ∧
    ∀ s y, entry (Engine.push_current_positions "alpha"
        (fun p => some [low_byte p.timestamp.toNat])
        [("beta", [("AAPL", (1, 7))]), ("alpha", [("AAPL", (5, 100)), ("MSFT", (-2, 90))])] 3).1
          s y
      = entry ([("beta", [("AAPL", (1, 7))]),
          ("alpha", [("AAPL", (5, 100)), ("MSFT", (-2, 90))])] : PositionTable) s y :=
  have hk : ((umap_at ([("beta", [("AAPL", (1, 7))]),
      ("alpha", [("AAPL", (5, 100)), ("MSFT", (-2, 90))])] : PositionTable)
        "alpha" []).map Prod.fst).Nodup := by decide
  have h := snapshot_on_join "alpha" (fun p => some [low_byte p.timestamp.toNat])
    [("beta", [("AAPL", (1, 7))]), ("alpha", [("AAPL", (5, 100)), ("MSFT", (-2, 90))])] 3 hk
  ⟨hk, h.1.trans (by decide), h.2.2.2.2.2.2⟩

/-- Counterexample to C12 as stated: node `alpha` holds `AAPL` under its own
strategy and `SerializeToString` fails.  The loop of
`push_current_positions` skips the record: no message is sent for a symbol
that has an entry. -/
theorem snapshot_on_join_counterexample :
    entry [("alpha", [("AAPL", (5, 100))])] "alpha" "AAPL" = some (5, 100) ∧
    Engine.snapshot_updates "alpha" [("alpha", [("AAPL", (5, 100))])]
      = [⟨"alpha", "AAPL", 5, 100⟩] ∧
    (Engine.push_current_positions "alpha" (fun _ => none)
      [("alpha", [("AAPL", (5, 100))])] 3).2 = [] := by
  refine ⟨by decide, by decide, by decide⟩

end PositionDistributor
